import Mathlib

/-!
# Verification of the sjsuparking ingestion pipeline and aggregation layer

Shallow embedding of the core logic of the repository:

* `api/cron.js` — `htmlToText`, `parseLastUpdated`, `parseStatuses`,
  `fetchWithTimeout` / `fetchGarageStatusPage` (control flow modelled with the
  network outcomes as explicit parameters), and the `handler` orchestration.
* `src/lib/env.ts` (`useGarageStatus` hook) — state transitions of `fetchRows`,
  the `latestByGarage` / `historyByGarage` derivations.
* `src/components/AreaChart.tsx` — the daily-average derivation.

Strings are modelled as `List Char` (UTF-16 code-unit subtleties do not arise
for the texts involved; JavaScript `toLowerCase` is modelled as ASCII
lowercasing, the identity beyond ASCII).  JavaScript numbers are modelled as
exact integers (`Int`); float rounding beyond 2^53 is not modelled.
-/

/-- The set of characters matched by JavaScript's `\s` regex class (and by
`String.prototype.trim`): ASCII whitespace, NBSP, and the Unicode space
separators / line terminators / BOM. -/
def isWsJS (c : Char) : Bool :=
  let n := c.toNat
  n = 0x9 || n = 0xA || n = 0xB || n = 0xC || n = 0xD || n = 0x20 ||
  n = 0xA0 || n = 0x1680 || (0x2000 ≤ n && n ≤ 0x200A) ||
  n = 0x2028 || n = 0x2029 || n = 0x202F || n = 0x205F || n = 0x3000 ||
  n = 0xFEFF

/-- ASCII lowercasing; model of JavaScript `toLowerCase` / the regex `i` flag
(identity beyond ASCII, which is all the source texts use). -/
def asciiLower (c : Char) : Char :=
  if 65 ≤ c.toNat ∧ c.toNat ≤ 90 then Char.ofNat (c.toNat + 32) else c

/-- The regex `\d` class: ASCII decimal digits. -/
def isDigitChar (c : Char) : Bool := 48 ≤ c.toNat && c.toNat ≤ 57

/-- Characters matched by the regex `.` metacharacter (no `s` flag):
everything except the line terminators. -/
def isDotChar (c : Char) : Bool :=
  let n := c.toNat
  !(n = 0xA || n = 0xD || n = 0x2028 || n = 0x2029)

/-- Case-insensitive character comparison, model of the regex `i` flag. -/
def lowEq (a b : Char) : Bool := asciiLower a = asciiLower b

/-- Does `p` match case-insensitively as a prefix of `s`? -/
def isPrefixCI : List Char → List Char → Bool
  | [], _ => true
  | _ :: _, [] => false
  | p :: ps, c :: cs => lowEq p c && isPrefixCI ps cs

/-- If `p` is a case-insensitive prefix of `s`, the remainder of `s` after it. -/
def matchCI : List Char → List Char → Option (List Char)
  | [], s => some s
  | _ :: _, [] => none
  | p :: ps, c :: cs => if lowEq p c then matchCI ps cs else none

/-! ## `htmlToText` (cron.js lines 7–15)

```js
html.replace(/<script[\s\S]*?<\/script>/gi, " ")
    .replace(/<style[\s\S]*?<\/style>/gi, " ")
    .replace(/<[^>]+>/g, " ")
    .replace(/&nbsp;/g, " ")
    .replace(/\s+/g, " ")
    .trim()
```

Each `replace(..., /g)` is a left-to-right scan replacing every (leftmost,
non-overlapping) match.  The lazy `[\s\S]*?` in the block patterns means the
match extends to the *earliest* following close tag; the greedy `[^>]+` in the
tag pattern is equivalent to "run to the first `>`" since backtracking to a
shorter run leaves a non-`>` character where `>` is required. -/

/-- First case-insensitive occurrence of `pat`: the remainder of `s` after it
(`none` when `pat` does not occur).  Model of the lazy search for the closing
tag in `<script[\s\S]*?<\/script>`. -/
def findCloseCI (pat : List Char) : List Char → Option (List Char)
  | [] => none
  | c :: cs =>
    match matchCI pat (c :: cs) with
    | some rest => some rest
    | none => findCloseCI pat cs

theorem matchCI_length_le : ∀ (p s r : List Char), matchCI p s = some r →
    r.length + p.length = s.length := by
  intro p
  induction p with
  | nil => intro s r h; simp [matchCI] at h; simp [h]
  | cons a ps ih =>
    intro s r h
    cases s with
    | nil => simp [matchCI] at h
    | cons c cs =>
      simp only [matchCI] at h
      split at h
      · have := ih cs r h
        simp [List.length_cons]; omega
      · exact absurd h (by simp)

theorem findCloseCI_length_lt (pat : List Char) (hp : pat ≠ []) :
    ∀ (s r : List Char), findCloseCI pat s = some r → r.length < s.length := by
  intro s
  induction s with
  | nil => intro r h; simp [findCloseCI] at h
  | cons c cs ih =>
    intro r h
    simp only [findCloseCI] at h
    cases hm : matchCI pat (c :: cs) with
    | some rest =>
      rw [hm] at h
      simp only [Option.some.injEq] at h
      subst h
      have h1 := matchCI_length_le pat (c :: cs) rest hm
      have h2 : pat.length ≠ 0 := by simpa using hp
      simp only [List.length_cons] at h1 ⊢
      omega
    | none =>
      rw [hm] at h
      have := ih r h
      simp only [List.length_cons]; omega

/-- One step family for `replace(/<OPEN[\s\S]*?CLOSE/gi, " ")`, with fuel for
structural recursion (the scan always advances, so `fuel = s.length` is
enough; see `stripBlocksGo_fuel`): at each position, if the (case-insensitive)
open pattern matches and a close pattern occurs afterwards, the whole match is
replaced by one space and the scan resumes after it; otherwise the character
is kept and the scan advances one position. -/
def stripBlocksGo (openPat closePat : List Char) : Nat → List Char → List Char
  | _, [] => []
  | 0, s => s
  | fuel + 1, c :: cs =>
    match matchCI openPat (c :: cs) with
    | some rest =>
      match findCloseCI closePat rest with
      | some rest2 => ' ' :: stripBlocksGo openPat closePat fuel rest2
      | none => c :: stripBlocksGo openPat closePat fuel cs
    | none => c :: stripBlocksGo openPat closePat fuel cs

def stripBlocks (openPat closePat s : List Char) : List Char :=
  stripBlocksGo openPat closePat s.length s

/-- The remainder of `s` after its first `>` (`none` when `s` has no `>`). -/
def afterGt : List Char → Option (List Char)
  | [] => none
  | c :: cs => if c = '>' then some cs else afterGt cs

/-- Match of `<[^>]+>` immediately after a `<`: at least one non-`>`
character, then a `>`; returns the remainder after the `>`.  (The greedy
`[^>]+` is equivalent to running to the first `>`.) -/
def findTagEnd : List Char → Option (List Char)
  | [] => none
  | c :: cs => if c = '>' then none else afterGt cs

theorem afterGt_length_lt : ∀ (s r : List Char), afterGt s = some r →
    r.length < s.length := by
  intro s
  induction s with
  | nil => intro r h; simp [afterGt] at h
  | cons c cs ih =>
    intro r h
    simp only [afterGt] at h
    split at h
    · cases h; simp
    · have := ih r h
      simp only [List.length_cons]; omega

theorem findTagEnd_length_lt (s r : List Char) (h : findTagEnd s = some r) :
    r.length < s.length := by
  cases s with
  | nil => simp [findTagEnd] at h
  | cons c cs =>
    simp only [findTagEnd] at h
    split at h
    · exact absurd h (by simp)
    · have := afterGt_length_lt cs r h
      simp only [List.length_cons]; omega

/-- `replace(/<[^>]+>/g, " ")`: left-to-right scan stripping tags (fuelled;
`fuel = s.length` suffices, see `stripTagsGo_fuel`). -/
def stripTagsGo : Nat → List Char → List Char
  | _, [] => []
  | 0, s => s
  | fuel + 1, c :: cs =>
    if c = '<' then
      match findTagEnd cs with
      | some rest => ' ' :: stripTagsGo fuel rest
      | none => c :: stripTagsGo fuel cs
    else c :: stripTagsGo fuel cs

def stripTags (s : List Char) : List Char := stripTagsGo s.length s

/-- `replace(/&nbsp;/g, " ")` (case-sensitive, no `i` flag; fuelled,
`fuel = s.length` suffices). -/
def stripNbspGo : Nat → List Char → List Char
  | _, [] => []
  | 0, s => s
  | fuel + 1, c :: cs =>
    if c = '&' ∧ cs.take 5 = ['n', 'b', 's', 'p', ';']
    then ' ' :: stripNbspGo fuel (cs.drop 5)
    else c :: stripNbspGo fuel cs

def stripNbsp (s : List Char) : List Char := stripNbspGo s.length s

/-- `replace(/\s+/g, " ")`: the flag records whether the previous character
was part of a whitespace run already replaced. -/
def collapseAux : Bool → List Char → List Char
  | _, [] => []
  | prevWs, c :: cs =>
    if isWsJS c then
      if prevWs then collapseAux true cs else ' ' :: collapseAux true cs
    else c :: collapseAux false cs

def collapseWs (s : List Char) : List Char := collapseAux false s

/-- `String.prototype.trim`. -/
def jsTrim (s : List Char) : List Char :=
  ((s.dropWhile (isWsJS ·)).reverse.dropWhile (isWsJS ·)).reverse

def scriptOpen : List Char := ['<', 's', 'c', 'r', 'i', 'p', 't']
def scriptClose : List Char := ['<', '/', 's', 'c', 'r', 'i', 'p', 't', '>']
def styleOpen : List Char := ['<', 's', 't', 'y', 'l', 'e']
def styleClose : List Char := ['<', '/', 's', 't', 'y', 'l', 'e', '>']

/-- `htmlToText` (cron.js 7–15). -/
def htmlToText (html : List Char) : List Char :=
  jsTrim (collapseWs (stripNbsp (stripTags
    (stripBlocks styleOpen styleClose
      (stripBlocks scriptOpen scriptClose html)))))

/-! ## Aggregation layer (`src/lib/env.ts`, hook `useGarageStatus`)

`GarageStatusRow` is the shared record shape; `fetchRows` is modelled as a
state transition taking the previous state and the outcome of the store read
(the Supabase query is an external collaborator, so its result is a
parameter); `latestByGarage` / `historyByGarage` are the `useMemo`
derivations.  JS `Map` is modelled as an insertion-ordered association list.
-/

structure GarageStatusRow where
  fetched_at : String
  last_updated : Option String
  garage : String
  status : Int
  source_url : String
  deriving DecidableEq, Repr

/-- Insertion-ordered map update: JS `map.set` for a key not present appends;
`latestByGarage` only sets when `!map.has(row.garage)`. -/
def latestByGarage (rows : List GarageStatusRow) :
    List (String × GarageStatusRow) :=
  rows.foldl
    (fun m row => if (m.lookup row.garage).isSome then m else m ++ [(row.garage, row)])
    []

/-- `historyByGarage`: per garage, the rows in encounter order. -/
def historyByGarage (rows : List GarageStatusRow) :
    List (String × List GarageStatusRow) :=
  rows.foldl
    (fun m row =>
      match m.lookup row.garage with
      | some arr => m.map (fun p => if p.1 = row.garage then (p.1, arr ++ [row]) else p)
      | none => m ++ [(row.garage, [row])])
    []

structure GarageStatusState where
  rows : List GarageStatusRow
  isLoading : Bool
  error : Option String
  refreshedAt : Option Nat
  deriving DecidableEq, Repr

/-- Outcome of one store read: the env-misconfiguration branch, a query
error (`error.message`), or the returned rows. -/
inductive ReadOutcome where
  | envError (msg : String)
  | queryError (msg : String)
  | ok (data : List GarageStatusRow)
  deriving DecidableEq, Repr

/-- `fetchRows` (env.ts 49–82) as a state transition: first
`setState(prev => { ...prev, isLoading: true, error: null })`, then by
outcome either `{ ...prev, isLoading: false, error }` (env or query error) or
a full replacement with the fresh rows.  `now` stands for `new Date()`. -/
def fetchRows (prev : GarageStatusState) (outcome : ReadOutcome) (now : Nat) :
    GarageStatusState :=
  let s1 : GarageStatusState := { prev with isLoading := true, error := none }
  match outcome with
  | .envError msg => { s1 with isLoading := false, error := some msg }
  | .queryError msg => { s1 with isLoading := false, error := some msg }
  | .ok data =>
    { rows := data, isLoading := false, error := none, refreshedAt := some now }

/-- Chronologically descending by `fetched_at` (ISO-8601 strings compare
lexicographically, which is how the store's `order` clause is used). -/
def sortedDesc (rows : List GarageStatusRow) : Prop :=
  rows.Chain' (fun a b => b.fetched_at ≤ a.fetched_at)

theorem lookup_append {α β : Type} [BEq α] (l₁ l₂ : List (α × β)) (a : α) :
    (l₁ ++ l₂).lookup a = ((l₁.lookup a).or (l₂.lookup a)) := by
  induction l₁ with
  | nil => simp [List.lookup]
  | cons p l ih =>
    simp only [List.cons_append, List.lookup]
    split
    · simp [Option.or]
    · exact ih

theorem latestByGarage_foldl (rows : List GarageStatusRow)
    (acc : List (String × GarageStatusRow)) (g : String) :
    (rows.foldl
      (fun m row =>
        if (m.lookup row.garage).isSome then m else m ++ [(row.garage, row)])
      acc).lookup g
    = (acc.lookup g).or (rows.find? (fun r => r.garage == g)) := by
  induction rows generalizing acc with
  | nil => simp [List.find?]
  | cons r rs ih =>
    simp only [List.foldl_cons]
    by_cases hpres : (acc.lookup r.garage).isSome
    · rw [if_pos hpres, ih acc]
      cases hg : r.garage == g with
      | true =>
        have hgeq : g = r.garage := (beq_iff_eq.mp hg).symm
        have hsome : (acc.lookup g).isSome := by rw [hgeq]; exact hpres
        rcases ho : acc.lookup g with _ | v
        · rw [ho] at hsome; simp at hsome
        · simp [List.find?_cons, hg, Option.or]
      | false => simp [List.find?_cons, hg]
    · rw [if_neg hpres, ih (acc ++ [(r.garage, r)]), lookup_append]
      cases hg : r.garage == g with
      | true =>
        have hgeq : g = r.garage := (beq_iff_eq.mp hg).symm
        have hnone : acc.lookup g = none := by
          rw [hgeq]; exact Option.not_isSome_iff_eq_none.mp hpres
        have hg' : (g == r.garage) = true := by simp [hgeq]
        simp [List.find?_cons, hg, hnone, List.lookup, hg', Option.or]
      | false =>
        have hg' : (g == r.garage) = false := by
          rcases beq_iff_eq.not.mp (by simp [hg] : ¬ (r.garage == g) = true)
            with h
          simp only [beq_eq_false_iff_ne, ne_eq]
          intro hc; exact h hc.symm
        simp only [List.find?_cons, hg, List.lookup, List.lookup_nil, hg']
        cases acc.lookup g <;> simp [Option.or]

theorem latestByGarage_lookup (rows : List GarageStatusRow) (g : String) :
    (latestByGarage rows).lookup g = rows.find? (fun r => r.garage == g) := by
  have := latestByGarage_foldl rows [] g
  simpa [latestByGarage, Option.or] using this

/-- The three records of spec §8 (garage names instantiated to two of the
known garages is not needed for `latestByGarage`, which is name-generic). -/
def rowA50 : GarageStatusRow :=
  { fetched_at := "2024-01-01T10:00:00Z", last_updated := none,
    garage := "A", status := 50, source_url := "u" }

def rowA70 : GarageStatusRow :=
  { fetched_at := "2024-01-01T14:00:00Z", last_updated := none,
    garage := "A", status := 70, source_url := "u" }

def rowB100 : GarageStatusRow :=
  { fetched_at := "2024-01-01T12:00:00Z", last_updated := none,
    garage := "B", status := 100, source_url := "u" }

/-- The §8 list in its given order. -/
def exampleRows : List GarageStatusRow := [rowA50, rowA70, rowB100]

/-- C5: for every list of records ordered by `fetched_at` descending,
`latestByGarage` maps each garage occurring in the list to the first record
bearing that garage name and maps no other garage; and on the §8 example list
it maps `A` to the status-50 record and `B` to the status-100 record. -/
theorem C5_latest_by_garage :
    (∀ (rows : List GarageStatusRow), sortedDesc rows →
      ∀ g, (latestByGarage rows).lookup g = rows.find? (fun r => r.garage == g)) ∧
    (latestByGarage exampleRows).lookup "A" = some rowA50 ∧
    (latestByGarage exampleRows).lookup "B" = some rowB100 ∧
    (∀ g, g ≠ "A" → g ≠ "B" → (latestByGarage exampleRows).lookup g = none) := by
  refine ⟨fun rows _ g => latestByGarage_lookup rows g, by decide, by decide, ?_⟩
  intro g hA hB
  rw [latestByGarage_lookup]
  have h1 : (("A" : String) == g) = false := by
    simp only [beq_eq_false_iff_ne, ne_eq]; exact fun h => hA h.symm
  have h2 : (("B" : String) == g) = false := by
    simp only [beq_eq_false_iff_ne, ne_eq]; exact fun h => hB h.symm
  simp [exampleRows, List.find?_cons, rowA50, rowA70, rowB100, h1, h2]

/-- C5 witness: the sorted-descending hypothesis discharged on a concrete
descending list. -/
theorem C5_latest_by_garage_witness :
    (latestByGarage [rowA70, rowB100, rowA50]).lookup "A" =
      [rowA70, rowB100, rowA50].find? (fun r => r.garage == "A") :=
  C5_latest_by_garage.1 [rowA70, rowB100, rowA50]
    (by simp [sortedDesc, List.chain'_cons, rowA70, rowB100, rowA50]; decide)
    "A"

/-- C6: a store read failure leaves the previous rows (hence every view
derived from them), carries the error message, is marked not-loading, and
does not touch `refreshedAt`. -/
theorem C6_read_failure_retains_rows
    (prev : GarageStatusState) (msg : String) (now : Nat) :
    (fetchRows prev (.queryError msg) now).rows = prev.rows ∧
    (fetchRows prev (.queryError msg) now).error = some msg ∧
    (fetchRows prev (.queryError msg) now).isLoading = false ∧
    (fetchRows prev (.queryError msg) now).refreshedAt = prev.refreshedAt ∧
    latestByGarage (fetchRows prev (.queryError msg) now).rows
      = latestByGarage prev.rows ∧
    historyByGarage (fetchRows prev (.queryError msg) now).rows
      = historyByGarage prev.rows := by
  simp [fetchRows]

/-! ## Status extractor (`parseStatuses`, cron.js 22–57)

`text.toLowerCase().indexOf(name.toLowerCase())` is modelled by `indexOfCI`.
The per-segment regex

```
  NAME.*?(?:\d+\s+[SNWE].*?)?\s+(Full|\d+\s*%)   (flag i)
```

(`escapeRegExp` is the identity on the garage names, which contain no regex
metacharacters) is hand-compiled into a backtracking matcher that follows the
JS engine's leftmost, lazy-preferring order.  Greedy `\d+`, `\s+` and `\s*`
are implemented by maximal munch: backtracking them to a shorter run always
leaves a digit (resp. whitespace) character where the next pattern element
requires whitespace, `[SNWE]`, `F`, a digit, or `%`, so the maximal run is
the only viable one. -/

/-- `lowered.indexOf(pat.toLowerCase())`, as an option instead of `-1`. -/
def indexOfCI (pat : List Char) : List Char → Option Nat
  | [] => if isPrefixCI pat [] then some 0 else none
  | c :: cs =>
    if isPrefixCI pat (c :: cs) then some 0
    else (indexOfCI pat cs).map (· + 1)

/-- The capture of `Full` (case-insensitive): the four matched characters. -/
def matchFullCI (s : List Char) : Option (List Char) :=
  if isPrefixCI ['f', 'u', 'l', 'l'] s then some (s.take 4) else none

/-- The capture of `\d+\s*%`. -/
def matchPct (s : List Char) : Option (List Char) :=
  if s.takeWhile (isDigitChar ·) = [] then none
  else
    match (s.dropWhile (isDigitChar ·)).dropWhile (isWsJS ·) with
    | '%' :: _ =>
      some (s.takeWhile (isDigitChar ·) ++
        (s.dropWhile (isDigitChar ·)).takeWhile (isWsJS ·) ++ ['%'])
    | _ => none

/-- The capture group `(Full|\d+\s*%)`; `Full` is tried first. -/
def matchAlt (s : List Char) : Option (List Char) :=
  (matchFullCI s).or (matchPct s)

/-- `\s+(Full|\d+\s*%)`. -/
def matchWsAlt (s : List Char) : Option (List Char) :=
  if s.takeWhile (isWsJS ·) = [] then none
  else matchAlt (s.dropWhile (isWsJS ·))

/-- Lazy `.*?\s+(Full|\d+\s*%)`: try the continuation first, then consume one
`.`-matching character and repeat (used inside the optional group). -/
def lazyWsAlt : List Char → Option (List Char)
  | [] => none
  | c :: cs =>
    match matchWsAlt (c :: cs) with
    | some cap => some cap
    | none => if isDotChar c then lazyWsAlt cs else none

/-- The optional group `\d+\s+[SNWE]` followed by its lazy tail `.*?` and the
continuation `\s+(Full|\d+\s*%)`. -/
def matchGroupPresent (s : List Char) : Option (List Char) :=
  if s.takeWhile (isDigitChar ·) = [] then none
  else if (s.dropWhile (isDigitChar ·)).takeWhile (isWsJS ·) = [] then none
  else
    match (s.dropWhile (isDigitChar ·)).dropWhile (isWsJS ·) with
    | c :: r2 =>
      if asciiLower c = 's' ∨ asciiLower c = 'n' ∨
         asciiLower c = 'w' ∨ asciiLower c = 'e'
      then lazyWsAlt r2 else none
    | [] => none

/-- `(?:\d+\s+[SNWE].*?)?\s+(Full|\d+\s*%)`: the optional group is greedy, so
its presence is tried first (with its own lazy tail interleaved with the
continuation), then its absence. -/
def matchGroupThen (s : List Char) : Option (List Char) :=
  (matchGroupPresent s).or (matchWsAlt s)

/-- Lazy `.*?` between the name and the rest of the pattern. -/
def lazyGroupAlt : List Char → Option (List Char)
  | [] => none
  | c :: cs =>
    match matchGroupThen (c :: cs) with
    | some cap => some cap
    | none => if isDotChar c then lazyGroupAlt cs else none

/-- The whole pattern anchored at the current position. -/
def matchPatternAt (name s : List Char) : Option (List Char) :=
  match matchCI name s with
  | some rest => lazyGroupAlt rest
  | none => none

/-- `segment.match(pattern)`: the regex engine tries each start position left
to right; the result is capture group 1 of the first successful position. -/
def searchPattern (name : List Char) : List Char → Option (List Char)
  | [] => matchPatternAt name []
  | c :: cs =>
    match matchPatternAt name (c :: cs) with
    | some cap => some cap
    | none => searchPattern name cs

/-- Decimal value of a digit string (the value `parseInt` computes once it
has selected the digit prefix). -/
def digitsToNat (ds : List Char) : Nat :=
  ds.foldl (fun a c => a * 10 + (c.toNat - '0'.toNat)) 0

/-- `Number.parseInt(s, 10)` (`none` for `NaN`): skip leading whitespace, an
optional sign, then the longest digit prefix; no digits means `NaN`.
JS float rounding above 2^53 is modelled as exact. -/
def parseIntJS (s : List Char) : Option Int :=
  match s.dropWhile (isWsJS ·) with
  | [] => none
  | c :: r =>
    if c = '-' then
      let ds := r.takeWhile (isDigitChar ·)
      if ds = [] then none else some (-(digitsToNat ds : Int))
    else if c = '+' then
      let ds := r.takeWhile (isDigitChar ·)
      if ds = [] then none else some ((digitsToNat ds : Int))
    else
      let ds := (c :: r).takeWhile (isDigitChar ·)
      if ds = [] then none else some ((digitsToNat ds : Int))

/-- `statusText.replace("%", "")` (no `g` flag: first occurrence only). -/
def replaceFirstPct : List Char → List Char
  | [] => []
  | c :: cs => if c = '%' then cs else c :: replaceFirstPct cs

/-- `statuses[name] = v` on a JS object: overwrite in place if the key
exists, else append (JS objects preserve insertion order for string keys). -/
def setStatus (m : List (List Char × Int)) (k : List Char) (v : Int) :
    List (List Char × Int) :=
  if (m.lookup k).isSome
  then m.map (fun p => if p.1 = k then (k, v) else p)
  else m ++ [(k, v)]

def garageNames : List (List Char) :=
  ["South Garage".data, "North Garage".data, "West Garage".data,
   "South Campus Garage".data]

/-- The `for` loop of `parseStatuses` (cron.js 33–54) over the sorted
positions; `nextIdx = positions[i+1]?.idx ?? text.length` and
`segment = text.slice(idx, nextIdx)`. -/
def statusLoop (text : List Char) :
    List (List Char × Nat) → List (List Char × Int) → List (List Char × Int)
  | [], statuses => statuses
  | (name, idx) :: rest, statuses =>
    let nextIdx := match rest with | [] => text.length | (_, j) :: _ => j
    let segment := (text.drop idx).take (nextIdx - idx)
    match searchPattern name segment with
    | none => statusLoop text rest statuses
    | some cap =>
      let statusText := jsTrim cap
      if statusText.map asciiLower = ['f', 'u', 'l', 'l'] then
        statusLoop text rest (setStatus statuses name 100)
      else
        match parseIntJS (jsTrim (replaceFirstPct statusText)) with
        | some n => statusLoop text rest (setStatus statuses name n)
        | none => statusLoop text rest statuses

/-- `parseStatuses` (cron.js 22–57): locate each garage name, sort the found
names by first occurrence, bound each garage's segment by the next found
name, and extract at most one value per garage. -/
def parseStatuses (text : List Char) : List (List Char × Int) :=
  let positions :=
    List.insertionSort (fun a b => a.2 ≤ b.2)
      (garageNames.filterMap (fun n => (indexOfCI n text).map (fun i => (n, i))))
  statusLoop text positions []

/-! ## Page fetcher and orchestrator (cron.js 59–107, 114–232)

Network effects are external collaborators, so each network call's outcome is
a parameter: `primary` is the result of the first `fetchWithTimeout` (a
rejection carries `message` and the optional `cause.code`), `fallback` the
result of the `https.get({ rejectUnauthorized: false })` retry, `storeWrite`
the result of the Supabase POST.  `parseLastUpdated` feeds only the opaque
`last_updated` diagnostic string, which no claim constrains; it enters the
model as the `lastUpdated` parameter. -/

structure JsError where
  message : String
  causeCode : Option String
  deriving DecidableEq, Repr

structure PageResponse where
  ok : Bool
  status : Nat
  body : List Char
  deriving DecidableEq, Repr

structure WriteResponse where
  ok : Bool
  status : Nat
  body : List Char
  deriving DecidableEq, Repr

def tlsCodes : List String :=
  ["UNABLE_TO_VERIFY_LEAF_SIGNATURE", "DEPTH_ZERO_SELF_SIGNED_CERT",
   "SELF_SIGNED_CERT_IN_CHAIN"]

/-- `tlsCodes.has(e?.cause?.code)`: `undefined` is never in the set. -/
def isTlsCode : Option String → Bool
  | some c => tlsCodes.contains c
  | none => false

/-- `fetchGarageStatusPage` (cron.js 74–107).  The second component records
whether the certificate-verification-skipping fallback request was attempted. -/
def fetchGarageStatusPage (primary fallback : Except JsError PageResponse) :
    Except JsError PageResponse × Bool :=
  match primary with
  | .ok r => (.ok r, false)
  | .error e =>
    if isTlsCode e.causeCode then (fallback, true) else (.error e, false)

/-- The structured results the `handler` can produce after the configuration
and authorization gates (which the spec scopes out); constructor names follow
the JSON bodies in cron.js 141–231. -/
inductive HandlerResult where
  | upstreamError (status : Nat) (bodySnippet : List Char)
  | nothingParsed (fetchedAt : String) (lastUpdated : Option String)
  | insertThrew (message : String) (causeCode : Option String)
  | insertRejected (status : Nat) (bodySnippet : List Char)
  | success (inserted : Nat) (fetchedAt : String)
  | cronFailed (message : String) (causeCode : Option String)
  deriving DecidableEq, Repr

/-- The HTTP status the handler sends with each result. -/
def HandlerResult.httpStatus : HandlerResult → Nat
  | .upstreamError _ _ => 502
  | .nothingParsed _ _ => 200
  | .insertThrew _ _ => 502
  | .insertRejected _ _ => 502
  | .success _ _ => 200
  | .cronFailed _ _ => 500

/-- The `error` field of the JSON body, when present. -/
def HandlerResult.errorLabel : HandlerResult → Option String
  | .upstreamError _ _ => some "Failed to fetch garage status page"
  | .nothingParsed _ _ => none
  | .insertThrew _ _ => some "Supabase insert failed"
  | .insertRejected _ _ => some "Supabase insert failed"
  | .success _ _ => none
  | .cronFailed _ _ => some "Cron failed"

/-- Record construction (cron.js 159–165): one row per extracted garage, all
sharing the run's `fetched_at`, `last_updated` and `source_url`. -/
def mkRows (statuses : List (List Char × Int)) (fetchedAt : String)
    (lastUpdated : Option String) (sourceUrl : String) : List GarageStatusRow :=
  statuses.map (fun p =>
    { fetched_at := fetchedAt, last_updated := lastUpdated,
      garage := String.mk p.1, status := p.2, source_url := sourceUrl })

/-- The `handler` pipeline from the page fetch on (cron.js 141–231): fetch
(with TLS fallback), check `pageResp.ok`, normalize, extract, build the
batch, then write; every thrown error lands in the outer `catch` as the
generic `Cron failed` result. -/
def handler (primary fallback : Except JsError PageResponse)
    (storeWrite : Except JsError WriteResponse)
    (fetchedAt : String) (lastUpdated : Option String) (sourceUrl : String) :
    HandlerResult :=
  match fetchGarageStatusPage primary fallback with
  | (.error e, _) => .cronFailed e.message e.causeCode
  | (.ok page, _) =>
    if page.ok = false then .upstreamError page.status (page.body.take 500)
    else
      let statuses := parseStatuses (htmlToText page.body)
      let rows := mkRows statuses fetchedAt lastUpdated sourceUrl
      if rows = [] then .nothingParsed fetchedAt lastUpdated
      else
        match storeWrite with
        | .error e => .insertThrew e.message e.causeCode
        | .ok resp =>
          if resp.ok = false then .insertRejected resp.status (resp.body.take 2000)
          else .success rows.length fetchedAt

/-- C2: the TLS-skipping fallback is attempted exactly when the primary
failure's cause code is one of the three chain-verification codes; an `ok`
response never triggers it, and any other error propagates unmodified with
no fallback attempt. -/
theorem C2_tls_fallback_gate :
    (∀ (e : JsError) (fb : Except JsError PageResponse),
      (fetchGarageStatusPage (.error e) fb).2 = true ↔
        e.causeCode = some "UNABLE_TO_VERIFY_LEAF_SIGNATURE" ∨
        e.causeCode = some "DEPTH_ZERO_SELF_SIGNED_CERT" ∨
        e.causeCode = some "SELF_SIGNED_CERT_IN_CHAIN") ∧
    (∀ (e : JsError) (fb : Except JsError PageResponse),
      ¬(e.causeCode = some "UNABLE_TO_VERIFY_LEAF_SIGNATURE" ∨
        e.causeCode = some "DEPTH_ZERO_SELF_SIGNED_CERT" ∨
        e.causeCode = some "SELF_SIGNED_CERT_IN_CHAIN") →
      fetchGarageStatusPage (.error e) fb = (.error e, false)) ∧
    (∀ (r : PageResponse) (fb : Except JsError PageResponse),
      fetchGarageStatusPage (.ok r) fb = (.ok r, false)) := by
  have hiff : ∀ (e : JsError), isTlsCode e.causeCode = true ↔
      e.causeCode = some "UNABLE_TO_VERIFY_LEAF_SIGNATURE" ∨
      e.causeCode = some "DEPTH_ZERO_SELF_SIGNED_CERT" ∨
      e.causeCode = some "SELF_SIGNED_CERT_IN_CHAIN" := by
    intro e
    cases hc : e.causeCode with
    | none => simp [isTlsCode]
    | some c =>
      simp [isTlsCode, tlsCodes, Option.some.injEq]
  refine ⟨?_, ?_, fun r fb => rfl⟩
  · intro e fb
    rw [← hiff e]
    simp only [fetchGarageStatusPage]
    by_cases h : isTlsCode e.causeCode = true
    · simp [h]
    · simp [Bool.of_not_eq_true h]
  · intro e fb h
    rw [← hiff e] at h
    simp only [fetchGarageStatusPage]
    simp [Bool.of_not_eq_true h]

/-- C2 witness: a non-TLS network error (concrete `ECONNREFUSED`) propagates
unmodified with no fallback attempt. -/
theorem C2_tls_fallback_gate_witness :
    fetchGarageStatusPage
      (.error { message := "fetch failed", causeCode := some "ECONNREFUSED" })
      (.ok { ok := true, status := 200, body := [] })
    = (.error { message := "fetch failed", causeCode := some "ECONNREFUSED" },
       false) :=
  C2_tls_fallback_gate.2.1
    { message := "fetch failed", causeCode := some "ECONNREFUSED" }
    (.ok { ok := true, status := 200, body := [] })
    (by decide)

/-- The error an aborted `fetch` rejects with when the `AbortController`
timeout fires: an `AbortError` whose message is Node's abort text and which
has no `cause.code`. -/
def abortError : JsError :=
  { message := "This operation was aborted", causeCode := none }

/-- C10 counterexample: a run whose page fetch is aborted by the timeout
produces the same generic `Cron failed` category (HTTP 500) as an arbitrary
unrelated failure — there is no Timeout-distinct structured error. -/
theorem C10_counterexample :
    handler (.error abortError) (.ok { ok := true, status := 200, body := [] })
        (.ok { ok := true, status := 201, body := [] }) "t" none "u"
      = .cronFailed "This operation was aborted" none ∧
    (handler (.error abortError) (.ok { ok := true, status := 200, body := [] })
        (.ok { ok := true, status := 201, body := [] }) "t" none "u").errorLabel
      = some "Cron failed" ∧
    (handler (.error { message := "getaddrinfo ENOTFOUND", causeCode := some "ENOTFOUND" })
        (.ok { ok := true, status := 200, body := [] })
        (.ok { ok := true, status := 201, body := [] }) "t" none "u").errorLabel
      = some "Cron failed" := by
  refine ⟨rfl, rfl, ?_⟩
  rfl

/-- C10 amended: a page-fetch rejection whose cause code is not one of the
three TLS codes — in particular the timeout abort — reaches the outer
`catch` and yields the generic `Cron failed` result (HTTP 500) carrying the
error's message and cause code; no Timeout-specific category exists. -/
theorem C10_timeout_generic (e : JsError)
    (h : isTlsCode e.causeCode = false)
    (fb : Except JsError PageResponse) (sw : Except JsError WriteResponse)
    (fa : String) (lu : Option String) (su : String) :
    handler (.error e) fb sw fa lu su = .cronFailed e.message e.causeCode ∧
    (handler (.error e) fb sw fa lu su).httpStatus = 500 := by
  have : fetchGarageStatusPage (.error e) fb = (.error e, false) := by
    simp [fetchGarageStatusPage, h]
  constructor
  · simp [handler, this]
  · simp [handler, this, HandlerResult.httpStatus]

/-- C10 witness: the amended statement at the concrete abort error. -/
theorem C10_timeout_generic_witness :
    handler (.error abortError) (.ok { ok := true, status := 200, body := [] })
        (.ok { ok := true, status := 201, body := [] }) "t" none "u"
      = .cronFailed "This operation was aborted" none :=
  (C10_timeout_generic abortError (by decide)
    (.ok { ok := true, status := 200, body := [] })
    (.ok { ok := true, status := 201, body := [] }) "t" none "u").1

/-! ### C7: batch invariants -/

theorem lookup_none_of_not_mem_keys {β : Type} (m : List (List Char × β))
    (k : List Char) (h : k ∉ m.map Prod.fst) : m.lookup k = none := by
  induction m with
  | nil => rfl
  | cons p rest ih =>
    simp only [List.map_cons, List.mem_cons, not_or] at h
    have hbeq : (k == p.1) = false := by
      simpa using h.1
    simp only [List.lookup, hbeq]
    exact ih h.2

theorem setStatus_append (m : List (List Char × Int)) (k : List Char) (v : Int)
    (h : k ∉ m.map Prod.fst) : setStatus m k v = m ++ [(k, v)] := by
  simp [setStatus, lookup_none_of_not_mem_keys m k h]

theorem statusLoop_keys_nodup (text : List Char) :
    ∀ (positions : List (List Char × Nat)) (statuses : List (List Char × Int)),
    (statuses.map Prod.fst ++ positions.map Prod.fst).Nodup →
    ((statusLoop text positions statuses).map Prod.fst).Nodup := by
  intro positions
  induction positions with
  | nil => intro statuses h; simpa [statusLoop] using (List.nodup_append.mp h).1
  | cons p rest ih =>
    intro statuses h
    obtain ⟨name, idx⟩ := p
    have hname_notin : name ∉ statuses.map Prod.fst := by
      have := (List.nodup_append.mp h).2.2
      intro hc
      exact this hc (by simp)
    have hskip : (statuses.map Prod.fst ++ rest.map Prod.fst).Nodup := by
      have : (statuses.map Prod.fst ++ rest.map Prod.fst).Sublist
          (statuses.map Prod.fst ++ ((name, idx) :: rest).map Prod.fst) := by
        simp only [List.map_cons]
        exact (List.Sublist.refl _).append (List.sublist_cons_self _ _)
      exact (List.nodup_append.mp h).1.append
        ((List.nodup_append.mp h).2.1.sublist (by simp))
        (fun a ha hb => (List.nodup_append.mp h).2.2 ha (by simp [hb]))
    have hset : ∀ v : Int,
        ((setStatus statuses name v).map Prod.fst ++ rest.map Prod.fst).Nodup := by
      intro v
      rw [setStatus_append statuses name v hname_notin]
      have : (setStatus statuses name v).map Prod.fst
          = statuses.map Prod.fst ++ [name] := by
        rw [setStatus_append statuses name v hname_notin]; simp
      simp only [List.map_append, List.map_cons, List.map_nil] at *
      have heq : statuses.map Prod.fst ++ [name] ++ rest.map Prod.fst
          = statuses.map Prod.fst ++ name :: rest.map Prod.fst := by
        simp
      rw [heq]
      simpa using h
    simp only [statusLoop]
    split
    · exact ih statuses hskip
    · split
      · exact ih _ (by simpa using hset 100)
      · split
        · exact ih _ (by simpa using hset _)
        · exact ih statuses hskip

theorem positions_keys_sublist (text : List Char) (names : List (List Char)) :
    ((names.filterMap
      (fun n => (indexOfCI n text).map (fun i => (n, i)))).map Prod.fst).Sublist
      names := by
  induction names with
  | nil => simp
  | cons n rest ih =>
    simp only [List.filterMap_cons]
    cases h : indexOfCI n text with
    | none => simpa [h] using ih.cons n
    | some i => simpa [h] using ih.cons₂ n

theorem parseStatuses_keys_nodup (text : List Char) :
    ((parseStatuses text).map Prod.fst).Nodup := by
  apply statusLoop_keys_nodup
  simp only [List.map_nil, List.nil_append]
  have hperm : (List.insertionSort (fun a b => a.2 ≤ b.2)
      (garageNames.filterMap
        (fun n => (indexOfCI n text).map (fun i => (n, i))))).Perm
      (garageNames.filterMap
        (fun n => (indexOfCI n text).map (fun i => (n, i)))) :=
    List.perm_insertionSort _ _
  exact ((hperm.map Prod.fst).nodup_iff).mpr
    ((by decide : garageNames.Nodup).sublist
      (positions_keys_sublist text garageNames))

/-- C7: every batch the handler constructs shares one `fetched_at` and one
`source_url` across its records, contains at most one record per garage
name, and contains no record for a garage without an extracted value. -/
theorem C7_batch_invariants (text : List Char) (fa : String)
    (lu : Option String) (su : String) :
    (∀ r ∈ mkRows (parseStatuses text) fa lu su,
      r.fetched_at = fa ∧ r.source_url = su) ∧
    ((mkRows (parseStatuses text) fa lu su).map
      GarageStatusRow.garage).Nodup ∧
    (∀ g : List Char, g ∉ (parseStatuses text).map Prod.fst →
      String.mk g ∉ (mkRows (parseStatuses text) fa lu su).map
        GarageStatusRow.garage) := by
  refine ⟨?_, ?_, ?_⟩
  · intro r hr
    simp only [mkRows, List.mem_map] at hr
    obtain ⟨p, _, rfl⟩ := hr
    exact ⟨rfl, rfl⟩
  · have : (mkRows (parseStatuses text) fa lu su).map GarageStatusRow.garage
        = ((parseStatuses text).map Prod.fst).map String.mk := by
      simp [mkRows, List.map_map, Function.comp]
    rw [this]
    exact (parseStatuses_keys_nodup text).map
      (fun a b h => by simpa [String.ext_iff] using h)
  · intro g hg hc
    simp only [mkRows, List.map_map, List.mem_map, Function.comp] at hc
    obtain ⟨p, hp, hpeq⟩ := hc
    have : p.1 = g := by
      have := congrArg String.data hpeq
      simpa using this
    exact hg (this ▸ List.mem_map_of_mem Prod.fst hp)

/-! ### Character and scanning facts -/

theorem toNat_ofNat_lt (n : Nat) (h : n < 0xd800) : (Char.ofNat n).toNat = n := by
  have hv : n.isValidChar := Or.inl h
  simp [Char.ofNat, hv, Char.ofNatAux, Char.toNat, UInt32.toNat, BitVec.toNat_ofNatLt]

theorem asciiLower_eq_self (c : Char) (h : ¬(65 ≤ c.toNat ∧ c.toNat ≤ 90)) :
    asciiLower c = c := by
  unfold asciiLower
  rw [if_neg h]

theorem asciiLower_toNat_upper (c : Char) (h : 65 ≤ c.toNat ∧ c.toNat ≤ 90) :
    (asciiLower c).toNat = c.toNat + 32 := by
  unfold asciiLower
  rw [if_pos h, toNat_ofNat_lt _ (by omega)]

theorem asciiLower_eq_imp (c x : Char) (h : asciiLower c = x) :
    c.toNat = x.toNat ∨ (c.toNat + 32 = x.toNat ∧ 65 ≤ c.toNat ∧ c.toNat ≤ 90) := by
  by_cases hu : 65 ≤ c.toNat ∧ c.toNat ≤ 90
  · right
    refine ⟨?_, hu⟩
    have := congrArg Char.toNat h
    rw [asciiLower_toNat_upper c hu] at this
    exact this
  · left
    rw [asciiLower_eq_self c hu] at h
    exact congrArg Char.toNat h

theorem ws_ranges (c : Char) (h : isWsJS c = true) :
    c.toNat = 9 ∨ c.toNat = 10 ∨ c.toNat = 11 ∨ c.toNat = 12 ∨ c.toNat = 13 ∨
    c.toNat = 32 ∨ c.toNat = 160 ∨ c.toNat = 5760 ∨
    (8192 ≤ c.toNat ∧ c.toNat ≤ 8202) ∨ c.toNat = 8232 ∨ c.toNat = 8233 ∨
    c.toNat = 8239 ∨ c.toNat = 8287 ∨ c.toNat = 12288 ∨ c.toNat = 65279 := by
  simp [isWsJS] at h
  tauto

theorem ws_toNat_cases (c : Char) (h : isWsJS c = true)
    (P : Prop)
    (hP : ∀ n : Nat, (n = 9 ∨ n = 10 ∨ n = 11 ∨ n = 12 ∨ n = 13 ∨ n = 32 ∨
      n = 160 ∨ n = 5760 ∨ (8192 ≤ n ∧ n ≤ 8202) ∨ n = 8232 ∨ n = 8233 ∨
      n = 8239 ∨ n = 8287 ∨ n = 12288 ∨ n = 65279) → c.toNat = n → P) : P := by
  rcases ws_ranges c h with hn|hn|hn|hn|hn|hn|hn|hn|hn|hn|hn|hn|hn|hn|hn
  all_goals first
    | exact hP _ (by omega) hn
    | exact hP c.toNat (by omega) rfl

theorem digit_range (c : Char) (h : isDigitChar c = true) :
    48 ≤ c.toNat ∧ c.toNat ≤ 57 := by
  simpa [isDigitChar] using h

theorem ws_not_upper (c : Char) (h : isWsJS c = true) :
    ¬(65 ≤ c.toNat ∧ c.toNat ≤ 90) := by
  rcases ws_ranges c h with hn|hn|hn|hn|hn|hn|hn|hn|hn|hn|hn|hn|hn|hn|hn <;> omega

theorem asciiLower_ws (c : Char) (h : isWsJS c = true) : asciiLower c = c :=
  asciiLower_eq_self c (ws_not_upper c h)

theorem asciiLower_digit (c : Char) (h : isDigitChar c = true) : asciiLower c = c :=
  asciiLower_eq_self c (by have := digit_range c h; omega)

theorem digit_not_ws (c : Char) (h : isDigitChar c = true) : isWsJS c = false := by
  have hd := digit_range c h
  cases hw : isWsJS c
  · rfl
  · exact absurd hw (by
      intro hww
      rcases ws_ranges c hww with hn|hn|hn|hn|hn|hn|hn|hn|hn|hn|hn|hn|hn|hn|hn <;>
        omega)

theorem mem_takeWhile_pred {p : Char → Bool} {l : List Char} {c : Char}
    (h : c ∈ l.takeWhile p) : p c = true := List.mem_takeWhile_imp h

theorem takeWhile_eq_self {p : Char → Bool} {l : List Char}
    (h : ∀ c ∈ l, p c = true) : l.takeWhile p = l := by
  induction l with
  | nil => rfl
  | cons c cs ih =>
    rw [List.takeWhile_cons p c cs, if_pos (h c (by simp))]
    rw [ih (fun d hd => h d (by simp [hd]))]

theorem dropWhile_append_all {p : Char → Bool} {xs r : List Char}
    (h : ∀ c ∈ xs, p c = true) : (xs ++ r).dropWhile p = r.dropWhile p := by
  induction xs with
  | nil => rfl
  | cons c cs ih =>
    rw [List.cons_append, List.dropWhile_cons, if_pos (h c (by simp))]
    exact ih (fun d hd => h d (by simp [hd]))

theorem takeWhile_append_stop {p : Char → Bool} {ds r : List Char}
    (h1 : ∀ c ∈ ds, p c = true)
    (h2 : ∀ c, r.head? = some c → p c = false) :
    (ds ++ r).takeWhile p = ds ∧ (ds ++ r).dropWhile p = r := by
  induction ds with
  | nil =>
    simp only [List.nil_append]
    cases r with
    | nil => simp
    | cons c cs =>
      have := h2 c rfl
      rw [List.takeWhile_cons p c cs, List.dropWhile_cons, if_neg (by simp [this]),
        if_neg (by simp [this])]
      simp
  | cons d ds' ih =>
    have hd := h1 d (by simp)
    have ihh := ih (fun c hc => h1 c (by simp [hc]))
    rw [List.cons_append, List.takeWhile_cons p d (ds' ++ r), if_pos hd,
      List.dropWhile_cons, if_pos hd, ihh.1, ihh.2]
    simp

theorem jsTrim_eq_self (s : List Char)
    (h1 : ∀ c, s.head? = some c → isWsJS c = false)
    (h2 : ∀ c, s.getLast? = some c → isWsJS c = false) : jsTrim s = s := by
  unfold jsTrim
  have hdrop : s.dropWhile (isWsJS ·) = s := by
    cases s with
    | nil => rfl
    | cons c cs =>
      rw [List.dropWhile_cons, if_neg (by simp [h1 c rfl])]
  rw [hdrop]
  have hdrop2 : s.reverse.dropWhile (isWsJS ·) = s.reverse := by
    cases hr : s.reverse with
    | nil => rfl
    | cons c cs =>
      have : s.reverse.head? = some c := by rw [hr]; rfl
      rw [List.head?_reverse] at this
      rw [List.dropWhile_cons, if_neg (by simp [h2 c this])]
  rw [hdrop2, List.reverse_reverse]

/-! ### Capture shapes of the status matcher -/

/-- A `Full` capture: four characters lowering to `full`. -/
def FullShape (cap : List Char) : Prop :=
  cap.map asciiLower = ['f', 'u', 'l', 'l']

/-- A percent capture: a nonempty digit run, optional whitespace, `%`. -/
def PctShape (cap : List Char) : Prop :=
  ∃ ds ws, cap = ds ++ ws ++ ['%'] ∧ ds ≠ [] ∧
    (∀ c ∈ ds, isDigitChar c = true) ∧ (∀ c ∈ ws, isWsJS c = true)

theorem matchFullCI_shape (s cap : List Char) (h : matchFullCI s = some cap) :
    FullShape cap := by
  unfold matchFullCI at h
  split at h
  · rename_i hp
    simp only [Option.some.injEq] at h
    subst h
    rcases s with _ | ⟨c1, s⟩; · simp [isPrefixCI] at hp
    rcases s with _ | ⟨c2, s⟩; · simp [isPrefixCI] at hp
    rcases s with _ | ⟨c3, s⟩; · simp [isPrefixCI] at hp
    rcases s with _ | ⟨c4, s⟩; · simp [isPrefixCI] at hp
    simp only [isPrefixCI, lowEq, Bool.and_eq_true, decide_eq_true_eq] at hp
    obtain ⟨e1, e2, e3, e4, _⟩ := hp
    simp only [FullShape, List.take, List.map]
    rw [← e1, ← e2, ← e3, ← e4]
    decide
  · exact absurd h (by simp)

theorem matchPct_shape (s cap : List Char) (h : matchPct s = some cap) :
    PctShape cap := by
  unfold matchPct at h
  split at h
  · exact absurd h (by simp)
  · rename_i hne
    split at h
    · simp only [Option.some.injEq] at h
      subst h
      refine ⟨s.takeWhile (isDigitChar ·),
        (s.dropWhile (isDigitChar ·)).takeWhile (isWsJS ·), rfl, hne, ?_, ?_⟩
      · exact fun c hc => mem_takeWhile_pred hc
      · exact fun c hc => mem_takeWhile_pred hc
    · exact absurd h (by simp)

theorem matchAlt_shape (s cap : List Char) (h : matchAlt s = some cap) :
    FullShape cap ∨ PctShape cap := by
  unfold matchAlt at h
  cases hf : matchFullCI s with
  | some c =>
    rw [hf] at h
    simp only [Option.or, Option.some.injEq] at h
    subst h
    exact Or.inl (matchFullCI_shape s c hf)
  | none =>
    rw [hf] at h
    simp only [Option.or] at h
    exact Or.inr (matchPct_shape s cap h)

theorem matchWsAlt_shape (s cap : List Char) (h : matchWsAlt s = some cap) :
    FullShape cap ∨ PctShape cap := by
  unfold matchWsAlt at h
  split at h
  · exact absurd h (by simp)
  · exact matchAlt_shape _ cap h

theorem lazyWsAlt_nil : lazyWsAlt [] = none := rfl

theorem lazyWsAlt_cons (c : Char) (cs : List Char) : lazyWsAlt (c :: cs) =
    (match matchWsAlt (c :: cs) with
     | some cap => some cap
     | none => if isDotChar c then lazyWsAlt cs else none) := rfl

theorem lazyGroupAlt_nil : lazyGroupAlt [] = none := rfl

theorem lazyGroupAlt_cons (c : Char) (cs : List Char) : lazyGroupAlt (c :: cs) =
    (match matchGroupThen (c :: cs) with
     | some cap => some cap
     | none => if isDotChar c then lazyGroupAlt cs else none) := rfl

theorem searchPattern_nil (name : List Char) :
    searchPattern name [] = matchPatternAt name [] := rfl

theorem searchPattern_cons (name : List Char) (c : Char) (cs : List Char) :
    searchPattern name (c :: cs) =
    (match matchPatternAt name (c :: cs) with
     | some cap => some cap
     | none => searchPattern name cs) := rfl

theorem lazyWsAlt_shape : ∀ (s cap : List Char), lazyWsAlt s = some cap →
    FullShape cap ∨ PctShape cap := by
  intro s
  induction s with
  | nil => intro cap h; rw [lazyWsAlt_nil] at h; exact absurd h (by simp)
  | cons c cs ih =>
    intro cap h
    rw [lazyWsAlt_cons] at h
    split at h
    · rename_i c' heq
      cases h
      exact matchWsAlt_shape _ _ heq
    · split at h
      · exact ih cap h
      · exact absurd h (by simp)

theorem matchGroupPresent_shape (s cap : List Char)
    (h : matchGroupPresent s = some cap) : FullShape cap ∨ PctShape cap := by
  unfold matchGroupPresent at h
  split at h
  · exact absurd h (by simp)
  · split at h
    · exact absurd h (by simp)
    · split at h
      · split at h
        · exact lazyWsAlt_shape _ _ h
        · exact absurd h (by simp)
      · exact absurd h (by simp)

theorem matchGroupThen_shape (s cap : List Char) (h : matchGroupThen s = some cap) :
    FullShape cap ∨ PctShape cap := by
  unfold matchGroupThen at h
  cases hp : matchGroupPresent s with
  | some c =>
    rw [hp] at h
    simp only [Option.or, Option.some.injEq] at h
    subst h
    exact matchGroupPresent_shape s c hp
  | none =>
    rw [hp] at h
    simp only [Option.or] at h
    exact matchWsAlt_shape _ _ h

theorem lazyGroupAlt_shape : ∀ (s cap : List Char), lazyGroupAlt s = some cap →
    FullShape cap ∨ PctShape cap := by
  intro s
  induction s with
  | nil => intro cap h; rw [lazyGroupAlt_nil] at h; exact absurd h (by simp)
  | cons c cs ih =>
    intro cap h
    rw [lazyGroupAlt_cons] at h
    split at h
    · rename_i c' heq
      cases h
      exact matchGroupThen_shape _ _ heq
    · split at h
      · exact ih cap h
      · exact absurd h (by simp)

theorem matchPatternAt_shape (name s cap : List Char)
    (h : matchPatternAt name s = some cap) : FullShape cap ∨ PctShape cap := by
  unfold matchPatternAt at h
  split at h
  · exact lazyGroupAlt_shape _ cap h
  · exact absurd h (by simp)

theorem searchPattern_shape (name : List Char) : ∀ (s cap : List Char),
    searchPattern name s = some cap → FullShape cap ∨ PctShape cap := by
  intro s
  induction s with
  | nil =>
    intro cap h
    rw [searchPattern_nil] at h
    exact matchPatternAt_shape name [] cap h
  | cons c cs ih =>
    intro cap h
    rw [searchPattern_cons] at h
    split at h
    · rename_i c' heq
      cases h
      exact matchPatternAt_shape name _ _ heq
    · exact ih cap h

/-! ### Values computed from captures -/

theorem replaceFirstPct_append (a b : List Char) (h : ∀ c ∈ a, c ≠ '%') :
    replaceFirstPct (a ++ '%' :: b) = a ++ b := by
  induction a with
  | nil => simp [replaceFirstPct]
  | cons c a' ih =>
    simp only [List.cons_append, replaceFirstPct, List.append_eq]
    rw [if_neg (h c (by simp)), ih (fun d hd => h d (by simp [hd]))]

theorem replaceFirstPct_id (a : List Char) (h : ∀ c ∈ a, c ≠ '%') :
    replaceFirstPct a = a := by
  induction a with
  | nil => rfl
  | cons c a' ih =>
    simp only [replaceFirstPct]
    rw [if_neg (h c (by simp)), ih (fun d hd => h d (by simp [hd]))]

theorem fullShape_chars (cap : List Char) (h : FullShape cap) :
    ∃ c1 c2 c3 c4, cap = [c1, c2, c3, c4] ∧ asciiLower c1 = 'f' ∧
      asciiLower c2 = 'u' ∧ asciiLower c3 = 'l' ∧ asciiLower c4 = 'l' := by
  unfold FullShape at h
  rcases cap with _ | ⟨c1, cap⟩; · simp at h
  rcases cap with _ | ⟨c2, cap⟩; · simp at h
  rcases cap with _ | ⟨c3, cap⟩; · simp at h
  rcases cap with _ | ⟨c4, cap⟩; · simp at h
  rcases cap with _ | ⟨c5, cap⟩
  · simp only [List.map_cons, List.map_nil, List.cons.injEq, and_true] at h
    exact ⟨c1, c2, c3, c4, rfl, h.1, h.2.1, h.2.2.1, h.2.2.2⟩
  · simp at h

theorem fullShape_mem_letters (cap : List Char) (h : FullShape cap) :
    ∀ c ∈ cap, asciiLower c = 'f' ∨ asciiLower c = 'u' ∨ asciiLower c = 'l' := by
  obtain ⟨c1, c2, c3, c4, rfl, h1, h2, h3, h4⟩ := fullShape_chars cap h
  intro c hc
  simp only [List.mem_cons, List.not_mem_nil, or_false] at hc
  rcases hc with rfl | rfl | rfl | rfl
  · exact Or.inl h1
  · exact Or.inr (Or.inl h2)
  · exact Or.inr (Or.inr h3)
  · exact Or.inr (Or.inr h4)

theorem fullShape_not_ws (cap : List Char) (h : FullShape cap) :
    ∀ c ∈ cap, isWsJS c = false := by
  intro c hc
  cases hw : isWsJS c
  · rfl
  · exfalso
    rcases fullShape_mem_letters cap h c hc with hl | hl | hl <;>
    · rw [asciiLower_ws c hw] at hl
      subst hl
      exact absurd hw (by decide)

theorem fullShape_not_pctchar (cap : List Char) (h : FullShape cap) :
    ∀ c ∈ cap, c ≠ '%' := by
  intro c hc he
  subst he
  rcases fullShape_mem_letters cap h _ hc with hl | hl | hl <;>
    exact absurd hl (by decide)

theorem head?_mem_of_ne {l : List Char} {c : Char} (h : l.head? = some c) :
    c ∈ l := by
  cases l with
  | nil => simp at h
  | cons a as =>
    simp only [List.head?_cons, Option.some.injEq] at h
    subst h; simp

theorem getLast?_mem_of_ne {l : List Char} {c : Char} (h : l.getLast? = some c) :
    c ∈ l := by
  rw [← List.head?_reverse] at h
  have := head?_mem_of_ne h
  simpa using this

theorem fullShape_trim (cap : List Char) (h : FullShape cap) :
    jsTrim cap = cap := by
  apply jsTrim_eq_self
  · exact fun c hc => fullShape_not_ws cap h c (head?_mem_of_ne hc)
  · exact fun c hc => fullShape_not_ws cap h c (getLast?_mem_of_ne hc)

theorem pctShape_trim (cap : List Char) (h : PctShape cap) :
    jsTrim cap = cap := by
  obtain ⟨ds, ws, rfl, hne, hd, _⟩ := h
  apply jsTrim_eq_self
  · intro c hc
    cases ds with
    | nil => exact absurd rfl hne
    | cons d ds' =>
      have hh : ((d :: ds') ++ ws ++ ['%']).head? = some d := by simp
      rw [hh] at hc
      cases hc
      exact digit_not_ws _ (hd _ (List.mem_cons_self _ _))
  · intro c hc
    have : (ds ++ ws ++ ['%']).getLast? = some '%' := by
      rw [← List.head?_reverse]
      simp
    rw [this] at hc
    cases hc
    decide

theorem pctShape_not_full (cap : List Char) (h : PctShape cap) :
    ¬ cap.map asciiLower = ['f', 'u', 'l', 'l'] := by
  obtain ⟨ds, ws, rfl, hne, hd, _⟩ := h
  cases ds with
  | nil => exact absurd rfl hne
  | cons d ds' =>
    intro heq
    simp only [List.cons_append, List.map_cons, List.cons.injEq] at heq
    have hdig := digit_range d (hd d (by simp))
    have := asciiLower_digit d (hd d (by simp))
    rw [this] at heq
    have : d.toNat = 102 := by rw [heq.1]; decide
    omega

theorem jsTrim_digits_ws (ds ws : List Char) (hne : ds ≠ [])
    (hd : ∀ c ∈ ds, isDigitChar c = true) (hw : ∀ c ∈ ws, isWsJS c = true) :
    jsTrim (ds ++ ws) = ds := by
  unfold jsTrim
  have hdrop : (ds ++ ws).dropWhile (isWsJS ·) = ds ++ ws := by
    cases ds with
    | nil => exact absurd rfl hne
    | cons d ds' =>
      rw [List.cons_append, List.dropWhile_cons,
        if_neg (by simp [digit_not_ws d (hd d (by simp))])]
  rw [hdrop, List.reverse_append]
  have hdrop2 : (ws.reverse ++ ds.reverse).dropWhile (isWsJS ·) = ds.reverse := by
    rw [dropWhile_append_all (fun c hc => hw c (by simpa using hc))]
    cases hrev : ds.reverse with
    | nil =>
      exact absurd (by simpa using congrArg List.reverse hrev) hne
    | cons d rest =>
      have hdmem : d ∈ ds := by
        have : d ∈ ds.reverse := by rw [hrev]; simp
        simpa using this
      rw [List.dropWhile_cons, if_neg (by simp [digit_not_ws d (hd d hdmem)])]
  rw [hdrop2, List.reverse_reverse]

theorem parseIntJS_digits (ds : List Char) (hne : ds ≠ [])
    (hd : ∀ c ∈ ds, isDigitChar c = true) :
    parseIntJS ds = some ((digitsToNat ds : Int)) := by
  unfold parseIntJS
  have hdrop : ds.dropWhile (isWsJS ·) = ds := by
    cases ds with
    | nil => exact absurd rfl hne
    | cons d ds' =>
      rw [List.dropWhile_cons, if_neg (by simp [digit_not_ws d (hd d (by simp))])]
  rw [hdrop]
  cases ds with
  | nil => exact absurd rfl hne
  | cons d r =>
    have hdig := digit_range d (hd d (by simp))
    have hminus : d ≠ '-' := by
      intro he; subst he; revert hdig; decide
    have hplus : d ≠ '+' := by
      intro he; subst he; revert hdig; decide
    simp only [hminus, hplus, if_false, reduceIte]
    rw [takeWhile_eq_self hd]
    rw [if_neg hne]

theorem parse_value_of_shape (cap : List Char)
    (h : FullShape cap ∨ PctShape cap) (n : Int)
    (hp : parseIntJS (jsTrim (replaceFirstPct (jsTrim cap))) = some n) :
    0 ≤ n := by
  rcases h with hf | hpct
  · exfalso
    rw [fullShape_trim cap hf, replaceFirstPct_id cap (fullShape_not_pctchar cap hf),
      fullShape_trim cap hf] at hp
    obtain ⟨c1, c2, c3, c4, rfl, h1, _, _, _⟩ := fullShape_chars cap hf
    have hnw : ∀ c ∈ [c1, c2, c3, c4], isWsJS c = false := fullShape_not_ws _ hf
    unfold parseIntJS at hp
    rw [List.dropWhile_cons, if_neg (by simp [hnw c1 (by simp)])] at hp
    have hnd : isDigitChar c1 = false := by
      cases hdg : isDigitChar c1
      · rfl
      · exfalso
        have := asciiLower_digit c1 hdg
        rw [this] at h1
        subst h1
        exact absurd hdg (by decide)
    have h1m : c1 ≠ '-' := by
      intro he; rw [he] at h1; exact absurd h1 (by decide)
    have h1p : c1 ≠ '+' := by
      intro he; rw [he] at h1; exact absurd h1 (by decide)
    simp only [h1m, h1p, if_false, reduceIte] at hp
    simp [List.takeWhile_cons, hnd] at hp
  · obtain ⟨ds, ws, rfl, hne, hd, hw⟩ := hpct
    rw [pctShape_trim _ ⟨ds, ws, rfl, hne, hd, hw⟩] at hp
    have hnp : ∀ c ∈ ds ++ ws, c ≠ '%' := by
      intro c hc he
      subst he
      rcases List.mem_append.mp hc with hm | hm
      · exact absurd (digit_range _ (hd _ hm)) (by decide)
      · have := ws_ranges _ (hw _ hm)
        revert this; decide
    rw [show ds ++ ws ++ ['%'] = (ds ++ ws) ++ '%' :: [] by simp,
      replaceFirstPct_append _ _ hnp, List.append_nil,
      jsTrim_digits_ws ds ws hne hd hw, parseIntJS_digits ds hne hd] at hp
    simp only [Option.some.injEq] at hp
    subst hp
    exact Int.ofNat_nonneg _

theorem setStatus_nonneg (m : List (List Char × Int)) (k : List Char) (v : Int)
    (hm : ∀ p ∈ m, 0 ≤ p.2) (hv : 0 ≤ v) : ∀ p ∈ setStatus m k v, 0 ≤ p.2 := by
  intro p hp
  unfold setStatus at hp
  split at hp
  · obtain ⟨q, hq, rfl⟩ := List.mem_map.mp hp
    split
    · exact hv
    · exact hm q hq
  · rcases List.mem_append.mp hp with hq | hq
    · exact hm p hq
    · simp only [List.mem_singleton] at hq
      subst hq
      exact hv

theorem statusLoop_nonneg (text : List Char) :
    ∀ (positions : List (List Char × Nat)) (statuses : List (List Char × Int)),
    (∀ p ∈ statuses, 0 ≤ p.2) →
    ∀ p ∈ statusLoop text positions statuses, 0 ≤ p.2 := by
  intro positions
  induction positions with
  | nil => intro statuses h; simpa [statusLoop] using h
  | cons pos rest ih =>
    intro statuses h
    obtain ⟨name, idx⟩ := pos
    simp only [statusLoop]
    split
    · exact ih statuses h
    · rename_i cap hcap
      have hshape := searchPattern_shape name _ cap hcap
      split
      · exact ih _ (setStatus_nonneg statuses name 100 h (by omega))
      · split
        · rename_i n hn
          exact ih _ (setStatus_nonneg statuses name n h
            (parse_value_of_shape cap hshape n hn))
        · exact ih statuses h

/-- C3 counterexample: the input text `South Garage 130%` yields status 130,
outside `[0, 100]` — the extractor performs no upper-bound check. -/
theorem C3_counterexample :
    parseStatuses "South Garage 130%".data = [("South Garage".data, 130)] ∧
    ¬((130 : Int) ≤ 100) := ⟨by decide, by decide⟩

/-- C3 amended: every status value the extractor produces (hence the status
of every record the ingestion job writes) is a nonnegative integer — `Full`
yields 100 and an `NN%` token yields NN — but NN is not clamped, so values
above 100 are possible. -/
theorem C3_status_nonneg (text : List Char) (p : List Char × Int)
    (hp : p ∈ parseStatuses text) : 0 ≤ p.2 := by
  exact statusLoop_nonneg text _ [] (by simp) p hp

/-- C3 witness: the amended bound at a concrete extraction. -/
theorem C3_status_nonneg_witness :
    (0 : Int) ≤ (("South Garage".data, (42 : Int)) : List Char × Int).2 :=
  C3_status_nonneg "South Garage 42%".data ("South Garage".data, 42) (by decide)

/-! ## Daily averages (`src/components/AreaChart.tsx`, `dailyData` memo)

`new Date(row.fetched_at)` and the local-time getters (`getFullYear`,
`getMonth`, `getDate`) are the browser's date library — an external
collaborator — so they enter the model as a parameter
`toLocal : String → Option DateParts` (`none` models an invalid date, the
`Number.isNaN(date.getTime())` guard).  The `getDayKey` string
`` `${year}-${month}-${day}` `` is modelled by the `DateParts` triple itself:
for the values produced by the getters the string roundtrips through
`split("-").map(Number)` injectively.  The sort comparator
`new Date(yA,mA,dA).getTime() - new Date(yB,mB,dB).getTime()` coincides with
lexicographic order on (year, month, day) for getter-produced parts
(month in 0–11, day in 1–31).  JS number arithmetic in the mean is modelled
as exact rational arithmetic; `Math.round` rounds half up. -/

structure DateParts where
  year : Int
  month : Nat
  day : Nat
  deriving DecidableEq, Repr

/-- Lexicographic (chronological) order on day triples. -/
def dpLe (a b : DateParts) : Prop :=
  a.year < b.year ∨ (a.year = b.year ∧
    (a.month < b.month ∨ (a.month = b.month ∧ a.day ≤ b.day)))

instance : DecidableRel dpLe := fun a b => by
  unfold dpLe
  infer_instance

instance : IsTotal DateParts dpLe :=
  ⟨by
    intro a b
    obtain ⟨ay, am, ad⟩ := a
    obtain ⟨by_, bm, bd⟩ := b
    simp only [dpLe]
    omega⟩

instance : IsTrans DateParts dpLe :=
  ⟨by
    intro a b c hab hbc
    obtain ⟨ay, am, ad⟩ := a
    obtain ⟨by_, bm, bd⟩ := b
    obtain ⟨cy, cm, cd⟩ := c
    simp only [dpLe] at *
    omega⟩

/-- `garageMap.get(row.garage)!.push(row.status)` with the
`if (!garageMap.has(...)) set(..., [])` guard. -/
def updateGarageMap (gm : List (String × List Int)) (g : String) (v : Int) :
    List (String × List Int) :=
  match gm.lookup g with
  | some arr => gm.map (fun p => if p.1 = g then (p.1, arr ++ [v]) else p)
  | none => gm ++ [(g, [v])]

/-- One row's insertion into `dayMap` (AreaChart.tsx 56–66). -/
def updateDayMap (dm : List (DateParts × List (String × List Int)))
    (k : DateParts) (g : String) (v : Int) :
    List (DateParts × List (String × List Int)) :=
  match dm.lookup k with
  | some gm => dm.map (fun p => if p.1 = k then (p.1, updateGarageMap gm g v) else p)
  | none => dm ++ [(k, updateGarageMap [] g v)]

/-- The grouping pass (AreaChart.tsx 50–67): skip rows with a falsy
`fetched_at` or an invalid date, group the rest by (local day, garage) in
insertion order. -/
def buildDayMap (toLocal : String → Option DateParts)
    (rows : List GarageStatusRow) :
    List (DateParts × List (String × List Int)) :=
  rows.foldl
    (fun dm row =>
      if row.fetched_at = "" then dm
      else
        match toLocal row.fetched_at with
        | none => dm
        | some k => updateDayMap dm k row.garage row.status)
    []

/-- `GARAGES` (src/lib/garages.ts). -/
def GARAGES : List String :=
  ["South Garage", "North Garage", "West Garage", "South Campus Garage"]

/-- `Math.round(x)`: round half toward positive infinity. -/
def roundHalfUp (q : ℚ) : Int := Int.floor (q + 1 / 2)

/-- `Math.round(statuses.reduce((a, b) => a + b, 0) / statuses.length)`. -/
def roundMean (l : List Int) : Int :=
  roundHalfUp ((l.sum : ℚ) / (l.length : ℚ))

/-- The `dailyData` memo (AreaChart.tsx 42–105): empty input or an empty day
map yield `[]`; otherwise the days are sorted chronologically and each data
point carries, for each of the four known garages, the rounded mean of its
statuses that day, or 0 when it has none.  (The `date` display string of a
data point is represented by the day triple; `formatDate` is presentation.) -/
def dailyData (toLocal : String → Option DateParts)
    (rows : List GarageStatusRow) : List (DateParts × List (String × Int)) :=
  if rows = [] then []
  else
    if buildDayMap toLocal rows = [] then []
    else
      (List.insertionSort dpLe ((buildDayMap toLocal rows).map Prod.fst)).map
        (fun k =>
          (k, GARAGES.map (fun g =>
            (g,
              if 0 < (((((buildDayMap toLocal rows).lookup k).getD []).lookup
                    g).getD []).length then
                roundMean
                  (((((buildDayMap toLocal rows).lookup k).getD []).lookup
                    g).getD [])
              else 0))))

/-- The records a given (day, garage) cell aggregates: the statuses of the
valid rows of that garage whose local day is `k`, in encounter order. -/
def statusesOf (toLocal : String → Option DateParts)
    (rows : List GarageStatusRow) (k : DateParts) (g : String) : List Int :=
  (rows.filter (fun r =>
    decide (r.fetched_at ≠ "") && decide (toLocal r.fetched_at = some k) &&
    decide (r.garage = g))).map GarageStatusRow.status

/-! ### C4 lemmas: lookups through the grouping maps -/

theorem lookup_none_keys {α β : Type} [BEq α] [LawfulBEq α]
    (m : List (α × β)) (k : α) (h : k ∉ m.map Prod.fst) : m.lookup k = none := by
  induction m with
  | nil => rfl
  | cons p rest ih =>
    simp only [List.map_cons, List.mem_cons, not_or] at h
    have hbeq : (k == p.1) = false := by simpa using h.1
    simp only [List.lookup, hbeq]
    exact ih h.2

theorem lookup_map_setval {α β : Type} [BEq α] [LawfulBEq α] [DecidableEq α]
    (m : List (α × β)) (k k' : α) (x : β) (hne : k ≠ k') :
    (m.map (fun p => if p.1 = k' then (p.1, x) else p)).lookup k
      = m.lookup k := by
  induction m with
  | nil => rfl
  | cons p rest ih =>
    simp only [List.map_cons]
    by_cases hp : p.1 = k'
    · rw [if_pos hp]
      have hbeq : (k == p.1) = false := by
        simp only [beq_eq_false_iff_ne, ne_eq]
        intro hc; exact hne (hc.trans hp)
      simp only [List.lookup, hbeq]
      exact ih
    · rw [if_neg hp]
      cases hk : k == p.1 with
      | true => simp [List.lookup, hk]
      | false => simp [List.lookup, hk]; exact ih

theorem lookup_map_setval_self {α β : Type} [BEq α] [LawfulBEq α] [DecidableEq α]
    (m : List (α × β)) (k' : α) (x : β) (h : (m.lookup k').isSome) :
    (m.map (fun p => if p.1 = k' then (p.1, x) else p)).lookup k' = some x := by
  induction m with
  | nil => simp [List.lookup] at h
  | cons p rest ih =>
    simp only [List.map_cons]
    by_cases hp : p.1 = k'
    · rw [if_pos hp]
      have hbeq : (k' == p.1) = true := by simp [hp]
      simp [List.lookup, hbeq]
    · rw [if_neg hp]
      have hbeq : (k' == p.1) = false := by
        simp only [beq_eq_false_iff_ne, ne_eq]
        intro hc; exact hp hc.symm
      simp only [List.lookup, hbeq] at h ⊢
      exact ih h

theorem lookup_singleton_ne {α β : Type} [BEq α] [LawfulBEq α]
    (k k' : α) (x : β) (hne : k ≠ k') :
    ([(k', x)] : List (α × β)).lookup k = none := by
  have hbeq : (k == k') = false := by simpa using hne
  simp [List.lookup, hbeq]

theorem updateGarageMap_lookup (gm : List (String × List Int)) (g' : String)
    (v : Int) (g : String) :
    (updateGarageMap gm g' v).lookup g =
      if g = g' then some (((gm.lookup g').getD []) ++ [v]) else gm.lookup g := by
  unfold updateGarageMap
  cases h : gm.lookup g' with
  | some arr =>
    by_cases hg : g = g'
    · subst hg
      rw [if_pos rfl, lookup_map_setval_self gm g _ (by simp [h])]
      rfl
    · rw [if_neg hg, lookup_map_setval gm g g' _ hg]
  | none =>
    rw [lookup_append]
    by_cases hg : g = g'
    · subst hg
      rw [if_pos rfl, h]
      simp [List.lookup, Option.or]
    · rw [if_neg hg, lookup_singleton_ne g g' _ hg]
      cases gm.lookup g <;> simp [Option.or]

theorem updateDayMap_lookup (dm : List (DateParts × List (String × List Int)))
    (k' : DateParts) (g : String) (v : Int) (k : DateParts) :
    (updateDayMap dm k' g v).lookup k =
      if k = k' then some (updateGarageMap ((dm.lookup k').getD []) g v)
      else dm.lookup k := by
  unfold updateDayMap
  cases h : dm.lookup k' with
  | some gm =>
    by_cases hk : k = k'
    · subst hk
      rw [if_pos rfl, lookup_map_setval_self dm k _ (by simp [h])]
      rfl
    · rw [if_neg hk, lookup_map_setval dm k k' _ hk]
  | none =>
    rw [lookup_append]
    by_cases hk : k = k'
    · subst hk
      rw [if_pos rfl, h]
      simp [List.lookup, Option.or]
    · rw [if_neg hk, lookup_singleton_ne k k' _ hk]
      cases dm.lookup k <;> simp [Option.or]

theorem updateDayMap_keys_mem (dm : List (DateParts × List (String × List Int)))
    (k' : DateParts) (g : String) (v : Int) (k : DateParts) :
    (k ∈ (updateDayMap dm k' g v).map Prod.fst ↔
      (k ∈ dm.map Prod.fst ∨ k = k')) := by
  unfold updateDayMap
  cases h : dm.lookup k' with
  | some gm =>
    have hmem : k' ∈ dm.map Prod.fst := by
      by_contra hc
      rw [lookup_none_keys dm k' hc] at h
      exact absurd h (by simp)
    have hkeys : (dm.map (fun p =>
        if p.1 = k' then (p.1, updateGarageMap gm g v) else p)).map Prod.fst
        = dm.map Prod.fst := by
      rw [List.map_map]
      apply List.map_congr_left
      intro p _
      simp only [Function.comp]
      split <;> rfl
    rw [hkeys]
    constructor
    · exact Or.inl
    · rintro (hm | rfl)
      · exact hm
      · exact hmem
  | none =>
    simp only [List.map_append, List.map_cons, List.map_nil, List.mem_append,
      List.mem_singleton]

theorem statusesOf_cons (toLocal : String → Option DateParts)
    (r : GarageStatusRow) (rows : List GarageStatusRow) (k : DateParts)
    (g : String) :
    statusesOf toLocal (r :: rows) k g =
      (if r.fetched_at ≠ "" ∧ toLocal r.fetched_at = some k ∧ r.garage = g
       then [r.status] else []) ++ statusesOf toLocal rows k g := by
  unfold statusesOf
  rw [List.filter_cons]
  by_cases h1 : r.fetched_at = "" <;>
    by_cases h2 : toLocal r.fetched_at = some k <;>
      by_cases h3 : r.garage = g <;>
        simp [h1, h2, h3]

theorem buildDayMap_go_chain (toLocal : String → Option DateParts) :
    ∀ (rows : List GarageStatusRow)
      (dm : List (DateParts × List (String × List Int))) (k : DateParts)
      (g : String),
    (((((rows.foldl
      (fun dm row =>
        if row.fetched_at = "" then dm
        else
          match toLocal row.fetched_at with
          | none => dm
          | some kk => updateDayMap dm kk row.garage row.status)
      dm)).lookup k).getD []).lookup g).getD []
    = ((((dm.lookup k).getD []).lookup g).getD []) ++
        statusesOf toLocal rows k g := by
  intro rows
  induction rows with
  | nil => intro dm k g; simp [statusesOf]
  | cons r rows ih =>
    intro dm k g
    rw [List.foldl_cons, statusesOf_cons]
    by_cases hfe : r.fetched_at = ""
    · rw [if_pos hfe, ih, if_neg (by simp [hfe])]
      rfl
    · rw [if_neg hfe]
      cases htl : toLocal r.fetched_at with
      | none => rw [ih, if_neg (by simp [htl])]; rfl
      | some kk =>
        rw [ih]
        by_cases hk : k = kk
        · subst hk
          rw [updateDayMap_lookup, if_pos rfl, Option.getD_some]
          rw [updateGarageMap_lookup]
          by_cases hg : g = r.garage
          · subst hg
            rw [if_pos rfl]
            rw [if_pos (⟨hfe, rfl, rfl⟩ :
              r.fetched_at ≠ "" ∧ some k = some k ∧ r.garage = r.garage)]
            simp [List.append_assoc]
          · rw [if_neg hg]
            rw [if_neg (fun hc => hg hc.2.2.symm :
              ¬(r.fetched_at ≠ "" ∧ some k = some k ∧ r.garage = g))]
            rfl
        · rw [updateDayMap_lookup, if_neg hk]
          rw [if_neg (fun hc => hk (by injection hc.2.1 with h; exact h.symm) :
            ¬(r.fetched_at ≠ "" ∧ some kk = some k ∧ r.garage = g))]
          rfl

theorem buildDayMap_chain (toLocal : String → Option DateParts)
    (rows : List GarageStatusRow) (k : DateParts) (g : String) :
    ((((buildDayMap toLocal rows).lookup k).getD []).lookup g).getD []
      = statusesOf toLocal rows k g := by
  have h := buildDayMap_go_chain toLocal rows [] k g
  simpa [buildDayMap, List.lookup] using h

theorem buildDayMap_go_keys (toLocal : String → Option DateParts) :
    ∀ (rows : List GarageStatusRow)
      (dm : List (DateParts × List (String × List Int))) (k : DateParts),
    (k ∈ ((rows.foldl
      (fun dm row =>
        if row.fetched_at = "" then dm
        else
          match toLocal row.fetched_at with
          | none => dm
          | some kk => updateDayMap dm kk row.garage row.status)
      dm)).map Prod.fst ↔
      k ∈ dm.map Prod.fst ∨
        ∃ r ∈ rows, r.fetched_at ≠ "" ∧ toLocal r.fetched_at = some k) := by
  intro rows
  induction rows with
  | nil => intro dm k; simp
  | cons r rows ih =>
    intro dm k
    rw [List.foldl_cons]
    by_cases hfe : r.fetched_at = ""
    · rw [if_pos hfe, ih]
      constructor
      · rintro (hm | hex)
        · exact Or.inl hm
        · exact Or.inr (by
            obtain ⟨q, hq, hok⟩ := hex
            exact ⟨q, List.mem_cons_of_mem r hq, hok⟩)
      · rintro (hm | ⟨q, hq, hok⟩)
        · exact Or.inl hm
        · rcases List.mem_cons.mp hq with rfl | hq'
          · exact absurd hfe hok.1
          · exact Or.inr ⟨q, hq', hok⟩
    · rw [if_neg hfe]
      cases htl : toLocal r.fetched_at with
      | none =>
        rw [ih]
        constructor
        · rintro (hm | ⟨q, hq, hok⟩)
          · exact Or.inl hm
          · exact Or.inr ⟨q, List.mem_cons_of_mem r hq, hok⟩
        · rintro (hm | ⟨q, hq, hok⟩)
          · exact Or.inl hm
          · rcases List.mem_cons.mp hq with rfl | hq'
            · rw [htl] at hok; exact absurd hok.2 (by simp)
            · exact Or.inr ⟨q, hq', hok⟩
      | some kk =>
        rw [ih]
        constructor
        · rintro (hm | ⟨q, hq, hok⟩)
          · rcases (updateDayMap_keys_mem dm kk r.garage r.status k).mp hm with
              hm' | rfl
            · exact Or.inl hm'
            · exact Or.inr ⟨r, List.mem_cons_self r rows, hfe, htl⟩
          · exact Or.inr ⟨q, List.mem_cons_of_mem r hq, hok⟩
        · rintro (hm | ⟨q, hq, hok⟩)
          · exact Or.inl ((updateDayMap_keys_mem dm kk r.garage r.status k).mpr
              (Or.inl hm))
          · rcases List.mem_cons.mp hq with rfl | hq'
            · rw [htl] at hok
              exact Or.inl ((updateDayMap_keys_mem dm kk q.garage q.status k).mpr
                (Or.inr (by injection hok.2 with h; exact h.symm)))
            · exact Or.inr ⟨q, hq', hok⟩

theorem buildDayMap_keys (toLocal : String → Option DateParts)
    (rows : List GarageStatusRow) (k : DateParts) :
    (k ∈ (buildDayMap toLocal rows).map Prod.fst ↔
      ∃ r ∈ rows, r.fetched_at ≠ "" ∧ toLocal r.fetched_at = some k) := by
  have h := buildDayMap_go_keys toLocal rows [] k
  simpa [buildDayMap] using h

/-- The browser's local-day evaluation of the three §8 timestamps in a
UTC-offset-zero locale: all three fall on local day (2024, month 0,
day 1). -/
def exampleToLocal : String → Option DateParts := fun s =>
  if s = "2024-01-01T10:00:00Z" ∨ s = "2024-01-01T14:00:00Z" ∨
     s = "2024-01-01T12:00:00Z"
  then some ⟨2024, 0, 1⟩ else none

/-- §8 example records with the placeholder garages A and B instantiated to
two known garages (the chart emits values only for the four known names). -/
def c4RowA50 : GarageStatusRow :=
  { fetched_at := "2024-01-01T10:00:00Z", last_updated := none,
    garage := "South Garage", status := 50, source_url := "u" }

def c4RowA70 : GarageStatusRow :=
  { fetched_at := "2024-01-01T14:00:00Z", last_updated := none,
    garage := "South Garage", status := 70, source_url := "u" }

def c4RowB100 : GarageStatusRow :=
  { fetched_at := "2024-01-01T12:00:00Z", last_updated := none,
    garage := "North Garage", status := 100, source_url := "u" }

/-- C4: the daily-average view groups records by (local day, garage), takes
the half-up-rounded mean per group, lists the days in ascending chronological
order whatever the input order, zero-fills a known garage with no readings on
a day that exists in the data, and on the §8 example yields 60 for garage A
(South) and 100 for garage B (North) on 2024-01-01. -/
theorem C4_daily_average :
    (∀ (toLocal : String → Option DateParts) (rows : List GarageStatusRow),
      ((dailyData toLocal rows).map Prod.fst).Sorted dpLe ∧
      (∀ p ∈ dailyData toLocal rows,
        p.2 = GARAGES.map (fun g =>
          (g, if 0 < (statusesOf toLocal rows p.1 g).length then
                roundMean (statusesOf toLocal rows p.1 g) else 0))) ∧
      (∀ k, k ∈ (dailyData toLocal rows).map Prod.fst ↔
        ∃ r ∈ rows, r.fetched_at ≠ "" ∧ toLocal r.fetched_at = some k)) ∧
    dailyData exampleToLocal [c4RowA50, c4RowA70, c4RowB100] =
      [(⟨2024, 0, 1⟩,
        [("South Garage", 60), ("North Garage", 100),
         ("West Garage", 0), ("South Campus Garage", 0)])] := by
  constructor
  · intro toLocal rows
    unfold dailyData
    by_cases hrows : rows = []
    · rw [if_pos hrows]
      subst hrows
      refine ⟨by simp, by simp, ?_⟩
      intro k
      simp
    · rw [if_neg hrows]
      by_cases hdm : buildDayMap toLocal rows = []
      · rw [if_pos hdm]
        refine ⟨by simp, by simp, ?_⟩
        intro k
        simp only [List.map_nil, List.not_mem_nil, false_iff]
        rintro ⟨r, hr, hok⟩
        have := (buildDayMap_keys toLocal rows k).mpr ⟨r, hr, hok⟩
        rw [hdm] at this
        simp at this
      · rw [if_neg hdm]
        have hkeys : ((List.insertionSort dpLe
            ((buildDayMap toLocal rows).map Prod.fst)).map
              (fun k => (k, GARAGES.map (fun g =>
                (g, if 0 < (((((buildDayMap toLocal rows).lookup k).getD
                      []).lookup g).getD []).length then
                      roundMean (((((buildDayMap toLocal rows).lookup k).getD
                        []).lookup g).getD [])
                    else 0))))).map Prod.fst
            = List.insertionSort dpLe ((buildDayMap toLocal rows).map Prod.fst) := by
          rw [List.map_map]
          exact List.map_id'' (fun _ => rfl) _
        refine ⟨?_, ?_, ?_⟩
        · rw [hkeys]
          exact List.sorted_insertionSort dpLe _
        · intro p hp
          obtain ⟨k, hk, rfl⟩ := List.mem_map.mp hp
          simp only
          simp only [buildDayMap_chain toLocal rows]
        · intro k
          rw [hkeys]
          rw [(List.perm_insertionSort dpLe
            ((buildDayMap toLocal rows).map Prod.fst)).mem_iff]
          exact buildDayMap_keys toLocal rows k
  · have h60 : roundMean [(50 : Int), 70] = 60 := by
      unfold roundMean roundHalfUp
      norm_num
    have h100 : roundMean [(100 : Int)] = 100 := by
      unfold roundMean roundHalfUp
      norm_num
    have hb : buildDayMap exampleToLocal [c4RowA50, c4RowA70, c4RowB100] =
        [(⟨2024, 0, 1⟩, [("South Garage", [50, 70]), ("North Garage", [100])])] := by
      decide
    unfold dailyData
    rw [if_neg (by simp), hb, if_neg (by simp)]
    rw [show List.insertionSort dpLe
        ([((⟨2024, 0, 1⟩ : DateParts),
          [("South Garage", [(50 : Int), 70]),
           ("North Garage", [100])])].map Prod.fst)
      = [⟨2024, 0, 1⟩] by rfl]
    simp only [List.map_cons, List.map_nil, GARAGES]
    have hday : (List.lookup (⟨2024, 0, 1⟩ : DateParts)
        [((⟨2024, 0, 1⟩ : DateParts),
          [("South Garage", [(50 : Int), 70]), ("North Garage", [100])])]).getD []
        = [("South Garage", [(50 : Int), 70]), ("North Garage", [100])] := by
      decide
    rw [hday]
    have hS : (List.lookup "South Garage"
        [("South Garage", [(50 : Int), 70]), ("North Garage", [100])]).getD []
        = [50, 70] := by decide
    have hN : (List.lookup "North Garage"
        [("South Garage", [(50 : Int), 70]), ("North Garage", [100])]).getD []
        = [100] := by decide
    have hW : (List.lookup "West Garage"
        [("South Garage", [(50 : Int), 70]), ("North Garage", [100])]).getD []
        = [] := by decide
    have hSC : (List.lookup "South Campus Garage"
        [("South Garage", [(50 : Int), 70]), ("North Garage", [100])]).getD []
        = [] := by decide
    rw [hS, hN, hW, hSC, h60, h100]
    norm_num

/-- C4 witness: the day-membership characterization applied at the concrete
example day and row. -/
theorem C4_daily_average_witness :
    (⟨2024, 0, 1⟩ : DateParts) ∈
      (dailyData exampleToLocal [c4RowA50, c4RowA70, c4RowB100]).map Prod.fst :=
  ((C4_daily_average.1 exampleToLocal
      [c4RowA50, c4RowA70, c4RowB100]).2.2 ⟨2024, 0, 1⟩).mpr
    ⟨c4RowA50, by simp, by decide, by decide⟩

/-- C7 witness: the no-record-for-unextracted-garage clause applied at a
concrete text with no garages. -/
theorem C7_batch_invariants_witness :
    String.mk "South Garage".data ∉
      (mkRows (parseStatuses "no garages here".data) "t" none "u").map
        GarageStatusRow.garage :=
  (C7_batch_invariants "no garages here".data "t" none "u").2.2
    "South Garage".data (by decide)

/-! ### C8/C9 infrastructure: the block- and tag-stripping scans -/

/-- Does `pat` occur case-insensitively anywhere in `s`? -/
def occursCI (pat : List Char) : List Char → Bool
  | [] => isPrefixCI pat []
  | c :: cs => isPrefixCI pat (c :: cs) || occursCI pat cs

/-- No occurrence of `pat` starts inside region `a` when `a` is followed by
`b`. -/
def NoStartIn (pat a b : List Char) : Prop :=
  ∀ i, i < a.length → isPrefixCI pat (a.drop i ++ b) = false

theorem matchCI_isSome_iff (pat : List Char) : ∀ (s : List Char),
    (matchCI pat s).isSome = isPrefixCI pat s := by
  induction pat with
  | nil => intro s; rfl
  | cons p ps ih =>
    intro s
    cases s with
    | nil => rfl
    | cons c cs =>
      simp only [matchCI, isPrefixCI]
      by_cases h : lowEq p c
      · rw [if_pos h, h, Bool.true_and]
        exact ih cs
      · rw [if_neg h]
        simp [Bool.of_not_eq_true h]

theorem matchCI_none_of_not_prefixCI {pat s : List Char}
    (h : isPrefixCI pat s = false) : matchCI pat s = none := by
  have := matchCI_isSome_iff pat s
  rw [h] at this
  exact Option.not_isSome_iff_eq_none.mp (by simp [this])

theorem lowEq_refl (c : Char) : lowEq c c = true := by
  simp [lowEq]

theorem matchCI_self_append (pat r : List Char) :
    matchCI pat (pat ++ r) = some r := by
  induction pat with
  | nil => rfl
  | cons p ps ih =>
    simp only [List.cons_append, matchCI, lowEq_refl, if_pos]
    exact ih

theorem isPrefixCI_shorten : ∀ (pat x b : List Char),
    isPrefixCI pat (x ++ b) = true → pat.length ≤ x.length →
    isPrefixCI pat x = true := by
  intro pat
  induction pat with
  | nil => intro x b _ _; rfl
  | cons p ps ih =>
    intro x b h hlen
    cases x with
    | nil => simp at hlen
    | cons c cs =>
      simp only [List.cons_append, isPrefixCI, Bool.and_eq_true] at h ⊢
      exact ⟨h.1, ih cs b h.2 (by simpa using hlen)⟩

theorem isPrefixCI_cross : ∀ (pat x b : List Char),
    isPrefixCI pat (x ++ b) = true → x.length < pat.length →
    isPrefixCI (pat.drop x.length) b = true := by
  intro pat
  induction pat with
  | nil => intro x b _ hlen; simp at hlen
  | cons p ps ih =>
    intro x b h hlen
    cases x with
    | nil => simpa using h
    | cons c cs =>
      simp only [List.cons_append, isPrefixCI, Bool.and_eq_true] at h
      simpa using ih cs b h.2 (by simpa using hlen)

theorem occursCI_of_prefix_drop : ∀ (s : List Char) (pat : List Char) (i : Nat),
    i < s.length → isPrefixCI pat (s.drop i) = true → occursCI pat s = true := by
  intro s
  induction s with
  | nil => intro pat i hi; simp at hi
  | cons c cs ih =>
    intro pat i hi hp
    cases i with
    | zero =>
      simp only [List.drop_zero] at hp
      simp [occursCI, hp]
    | succ j =>
      simp only [List.drop_succ_cons] at hp
      have := ih pat j (by simpa using hi) hp
      simp [occursCI, this]

/-- Build `NoStartIn` from absence of full occurrences plus impossibility of
boundary-crossing occurrences. -/
theorem noStartIn_mk (pat a b : List Char)
    (hoc : occursCI pat a = false)
    (hcross : ∀ n, 0 < n → n < pat.length → isPrefixCI (pat.drop n) b = false) :
    NoStartIn pat a b := by
  intro i hi
  cases hp : isPrefixCI pat (a.drop i ++ b) with
  | false => rfl
  | true =>
    exfalso
    by_cases hlen : pat.length ≤ (a.drop i).length
    · have := isPrefixCI_shorten pat (a.drop i) b hp hlen
      have hocc := occursCI_of_prefix_drop a pat i hi this
      rw [hoc] at hocc
      exact absurd hocc (by simp)
    · push_neg at hlen
      have hcr := isPrefixCI_cross pat (a.drop i) b hp hlen
      have hpos : 0 < (a.drop i).length := by
        rw [List.length_drop]
        omega
      rw [hcross (a.drop i).length hpos hlen] at hcr
      exact absurd hcr (by simp)

theorem noStartIn_append (pat a b c : List Char)
    (h1 : NoStartIn pat a (b ++ c)) (h2 : NoStartIn pat b c) :
    NoStartIn pat (a ++ b) c := by
  intro i hi
  rw [List.length_append] at hi
  by_cases hia : i < a.length
  · have h1' := h1 i hia
    have hdrop : List.drop i (a ++ b) = List.drop i a ++ b :=
      List.drop_append_of_le_length (le_of_lt hia)
    rw [hdrop, List.append_assoc]
    exact h1'
  · push_neg at hia
    have h2' := h2 (i - a.length) (by omega)
    have hdrop : List.drop (a.length + (i - a.length)) (a ++ b)
        = List.drop (i - a.length) b := List.drop_append _
    rw [show i = a.length + (i - a.length) from by omega, hdrop]
    exact h2'

theorem stripBlocksGo_nil (op cp : List Char) (f : Nat) :
    stripBlocksGo op cp f [] = [] := by
  cases f <;> rfl

theorem stripBlocksGo_succ_cons (op cp : List Char) (f : Nat) (c : Char)
    (cs : List Char) :
    stripBlocksGo op cp (f + 1) (c :: cs) =
    (match matchCI op (c :: cs) with
     | some rest =>
       match findCloseCI cp rest with
       | some rest2 => ' ' :: stripBlocksGo op cp f rest2
       | none => c :: stripBlocksGo op cp f cs
     | none => c :: stripBlocksGo op cp f cs) := rfl

/-- Fuel irrelevance for the block-stripping scan (for a nonempty open
pattern every step consumes input). -/
theorem stripBlocksGo_fuel (op cp : List Char) (hop : op ≠ []) :
    ∀ (n : Nat) (s : List Char), s.length ≤ n →
    ∀ f1 f2, s.length ≤ f1 → s.length ≤ f2 →
    stripBlocksGo op cp f1 s = stripBlocksGo op cp f2 s := by
  intro n
  induction n with
  | zero =>
    intro s hs f1 f2 _ _
    have : s = [] := List.length_eq_zero.mp (Nat.le_zero.mp hs)
    subst this
    rw [stripBlocksGo_nil, stripBlocksGo_nil]
  | succ m ih =>
    intro s hs f1 f2 h1 h2
    cases s with
    | nil => rw [stripBlocksGo_nil, stripBlocksGo_nil]
    | cons c cs =>
      cases f1 with
      | zero => simp at h1
      | succ g1 =>
        cases f2 with
        | zero => simp at h2
        | succ g2 =>
          cases hm : matchCI op (c :: cs) with
          | none =>
            simp only [stripBlocksGo_succ_cons, hm]
            rw [ih cs (by simp at hs; omega) g1 g2
              (by simp at h1; omega) (by simp at h2; omega)]
          | some rest =>
            have hopl : 1 ≤ op.length := by
              cases op with
              | nil => exact absurd rfl hop
              | cons _ _ => simp
            have hr : rest.length + op.length = cs.length + 1 :=
              matchCI_length_le op (c :: cs) rest hm
            cases hc : findCloseCI cp rest with
            | none =>
              simp only [stripBlocksGo_succ_cons, hm, hc]
              rw [ih cs (by simp at hs; omega) g1 g2
                (by simp at h1; omega) (by simp at h2; omega)]
            | some rest2 =>
              have hr2 : rest2.length ≤ rest.length := by
                cases hcp : cp with
                | nil =>
                  rw [hcp] at hc
                  cases rest with
                  | nil => simp [findCloseCI] at hc
                  | cons d ds =>
                    simp only [findCloseCI, matchCI] at hc
                    cases hc
                    exact le_refl _
                | cons q qs =>
                  exact le_of_lt (findCloseCI_length_lt cp (by simp [hcp])
                    rest rest2 hc)
              simp only [stripBlocksGo_succ_cons, hm, hc]
              rw [ih rest2 (by simp at hs; omega) g1 g2
                (by simp at h1; omega) (by simp at h2; omega)]

theorem isPrefixCI_head_false (p c : Char) (ps cs : List Char)
    (h : lowEq p c = false) : isPrefixCI (p :: ps) (c :: cs) = false := by
  simp [isPrefixCI, h]

theorem stripBlocksGo_append (op cp : List Char) :
    ∀ (a b : List Char) (f : Nat), (a ++ b).length ≤ f → NoStartIn op a b →
    stripBlocksGo op cp f (a ++ b) = a ++ stripBlocksGo op cp (f - a.length) b := by
  intro a
  induction a with
  | nil => intro b f _ _; simp
  | cons c a' ih =>
    intro b f hf hns
    cases f with
    | zero => simp at hf
    | succ g =>
      have h0 : isPrefixCI op (c :: (a' ++ b)) = false := by
        have := hns 0 (by simp)
        simpa using this
      rw [List.cons_append, stripBlocksGo_succ_cons,
        matchCI_none_of_not_prefixCI h0]
      have hns' : NoStartIn op a' b := by
        intro i hi
        have := hns (i + 1) (by simp; omega)
        simpa using this
      rw [ih b g (by simp at hf ⊢; omega) hns']
      have harith : g + 1 - (a'.length + 1) = g - a'.length := by omega
      simp only [List.cons_append, List.length_cons, harith]

theorem stripBlocks_id_of (op cp s : List Char) (h : NoStartIn op s []) :
    stripBlocks op cp s = s := by
  unfold stripBlocks
  have h' : NoStartIn op s ([] : List Char) := h
  have := stripBlocksGo_append op cp s [] s.length (by simp) h'
  simpa [stripBlocksGo_nil] using this

theorem findCloseCI_append (cp : List Char) :
    ∀ (a b : List Char), NoStartIn cp a b →
    findCloseCI cp (a ++ b) = findCloseCI cp b := by
  intro a
  induction a with
  | nil => intro b _; rfl
  | cons c a' ih =>
    intro b hns
    have h0 : isPrefixCI cp (c :: (a' ++ b)) = false := by
      have := hns 0 (by simp)
      simpa using this
    rw [List.cons_append]
    show (match matchCI cp (c :: (a' ++ b)) with
      | some rest => some rest
      | none => findCloseCI cp (a' ++ b)) = findCloseCI cp b
    rw [matchCI_none_of_not_prefixCI h0]
    exact ih b (fun i hi => by
      have := hns (i + 1) (by simp; omega)
      simpa using this)

theorem findCloseCI_self (cp r : List Char) (hcp : cp ≠ []) :
    findCloseCI cp (cp ++ r) = some r := by
  cases cp with
  | nil => exact absurd rfl hcp
  | cons q qs =>
    rw [List.cons_append]
    show (match matchCI (q :: qs) (q :: (qs ++ r)) with
      | some rest => some rest
      | none => findCloseCI (q :: qs) (qs ++ r)) = some r
    rw [show (q :: (qs ++ r)) = (q :: qs) ++ r from rfl, matchCI_self_append]

theorem stripBlocksGo_block (op cp : List Char) (o0 : Char) (oRest : List Char)
    (hop : op = o0 :: oRest) (hcp : cp ≠ []) (body post : List Char) (f : Nat)
    (hf : (op ++ '>' :: body ++ cp ++ post).length ≤ f)
    (hcl : NoStartIn cp ('>' :: body) (cp ++ post)) :
    stripBlocksGo op cp f (op ++ '>' :: body ++ cp ++ post)
      = ' ' :: stripBlocksGo op cp (f - 1) post := by
  cases f with
  | zero => rw [hop] at hf; simp at hf
  | succ g =>
    have hscrut : op ++ '>' :: body ++ cp ++ post
        = o0 :: (oRest ++ ('>' :: body ++ cp ++ post)) := by
      rw [hop]; simp
    rw [hscrut, stripBlocksGo_succ_cons,
      show o0 :: (oRest ++ ('>' :: body ++ cp ++ post))
        = op ++ ('>' :: body ++ cp ++ post) from by rw [hop]; simp,
      matchCI_self_append]
    have hclose : findCloseCI cp ('>' :: body ++ cp ++ post) = some post := by
      rw [show ('>' :: body ++ cp ++ post) = ('>' :: body) ++ (cp ++ post)
        from by simp, findCloseCI_append cp ('>' :: body) (cp ++ post) hcl,
        findCloseCI_self cp post hcp]
    simp only [hclose]
    have harith : g + 1 - 1 = g := by omega
    rw [harith]

/-- The core of C8: one block plus its content collapses to a single space,
leaving exactly the text around it. -/
theorem stripBlocks_removed (op cp : List Char) (o0 : Char) (oRest : List Char)
    (hop : op = o0 :: oRest) (hcp : cp ≠ [])
    (pre body post : List Char)
    (hpre : NoStartIn op pre (op ++ '>' :: body ++ cp ++ post))
    (hpre' : NoStartIn op pre (' ' :: post))
    (hsp : lowEq o0 ' ' = false)
    (hcl : NoStartIn cp ('>' :: body) (cp ++ post)) :
    stripBlocks op cp (pre ++ op ++ '>' :: body ++ cp ++ post)
      = stripBlocks op cp (pre ++ ' ' :: post) := by
  have hop_ne : op ≠ [] := by rw [hop]; simp
  unfold stripBlocks
  have e1 : stripBlocksGo op cp (pre ++ op ++ '>' :: body ++ cp ++ post).length
      (pre ++ op ++ '>' :: body ++ cp ++ post)
      = pre ++ ' ' :: stripBlocksGo op cp post.length post := by
    rw [show pre ++ op ++ '>' :: body ++ cp ++ post
      = pre ++ (op ++ '>' :: body ++ cp ++ post) from by simp]
    rw [stripBlocksGo_append op cp pre _ _ (by simp) (by
      intro i hi
      have := hpre i hi
      simpa using this)]
    rw [stripBlocksGo_block op cp o0 oRest hop hcp body post _
      (by simp) hcl]
    congr 1
    congr 1
    exact stripBlocksGo_fuel op cp hop_ne
      ((pre ++ (op ++ '>' :: body ++ cp ++ post)).length - pre.length - 1)
      post (by simp [hop]; omega) _ _ (by simp [hop]; omega) (le_refl _)
  have e2 : stripBlocksGo op cp (pre ++ ' ' :: post).length (pre ++ ' ' :: post)
      = pre ++ ' ' :: stripBlocksGo op cp post.length post := by
    rw [stripBlocksGo_append op cp pre (' ' :: post) _ (by simp) hpre']
    have hsp' : isPrefixCI op (' ' :: post) = false := by
      rw [hop]
      exact isPrefixCI_head_false o0 ' ' oRest post hsp
    have hlen : (pre ++ ' ' :: post).length - pre.length = post.length + 1 := by
      simp
    rw [hlen, stripBlocksGo_succ_cons, matchCI_none_of_not_prefixCI hsp']
  rw [e1, e2]

theorem isPrefixCI_false_at1 (p0 p1 : Char) (ps : List Char) (c0 c1 : Char)
    (cs : List Char) (h : lowEq p1 c1 = false) :
    isPrefixCI (p0 :: p1 :: ps) (c0 :: c1 :: cs) = false := by
  simp [isPrefixCI, h]

theorem isPrefixCI_false_at2 (p0 p1 p2 : Char) (ps : List Char)
    (c0 c1 c2 : Char) (cs : List Char) (h : lowEq p2 c2 = false) :
    isPrefixCI (p0 :: p1 :: p2 :: ps) (c0 :: c1 :: c2 :: cs) = false := by
  simp [isPrefixCI, h]

theorem noStartIn_single (pat : List Char) (c : Char) (b : List Char)
    (h : isPrefixCI pat (c :: b) = false) : NoStartIn pat [c] b := by
  intro i hi
  cases i with
  | zero => simpa using h
  | succ j => simp at hi

/-- No suffix of `<script` (other than the whole) begins at a `<` or at a
space, and no suffix survives against the empty list. -/
theorem scriptOpen_drop_lt (b' : List Char) :
    ∀ n, 0 < n → n < scriptOpen.length →
    isPrefixCI (scriptOpen.drop n) ('<' :: b') = false := by
  intro n h1 h2
  simp only [scriptOpen, List.length_cons, List.length_nil] at h2
  interval_cases n <;> exact isPrefixCI_head_false _ _ _ _ (by decide)

theorem scriptOpen_drop_sp (b' : List Char) :
    ∀ n, 0 < n → n < scriptOpen.length →
    isPrefixCI (scriptOpen.drop n) (' ' :: b') = false := by
  intro n h1 h2
  simp only [scriptOpen, List.length_cons, List.length_nil] at h2
  interval_cases n <;> exact isPrefixCI_head_false _ _ _ _ (by decide)

theorem scriptOpen_drop_nil :
    ∀ n, 0 < n → n < scriptOpen.length →
    isPrefixCI (scriptOpen.drop n) [] = false := by
  intro n h1 h2
  simp only [scriptOpen, List.length_cons, List.length_nil] at h2
  interval_cases n <;> rfl

theorem scriptClose_drop_lt (b' : List Char) :
    ∀ n, 0 < n → n < scriptClose.length →
    isPrefixCI (scriptClose.drop n) ('<' :: b') = false := by
  intro n h1 h2
  simp only [scriptClose, List.length_cons, List.length_nil] at h2
  interval_cases n <;> exact isPrefixCI_head_false _ _ _ _ (by decide)

theorem styleOpen_drop_lt (b' : List Char) :
    ∀ n, 0 < n → n < styleOpen.length →
    isPrefixCI (styleOpen.drop n) ('<' :: b') = false := by
  intro n h1 h2
  simp only [styleOpen, List.length_cons, List.length_nil] at h2
  interval_cases n <;> exact isPrefixCI_head_false _ _ _ _ (by decide)

theorem styleOpen_drop_sp (b' : List Char) :
    ∀ n, 0 < n → n < styleOpen.length →
    isPrefixCI (styleOpen.drop n) (' ' :: b') = false := by
  intro n h1 h2
  simp only [styleOpen, List.length_cons, List.length_nil] at h2
  interval_cases n <;> exact isPrefixCI_head_false _ _ _ _ (by decide)

theorem styleClose_drop_lt (b' : List Char) :
    ∀ n, 0 < n → n < styleClose.length →
    isPrefixCI (styleClose.drop n) ('<' :: b') = false := by
  intro n h1 h2
  simp only [styleClose, List.length_cons, List.length_nil] at h2
  interval_cases n <;> exact isPrefixCI_head_false _ _ _ _ (by decide)

/-- C8, script half: a `<script>` block and everything inside it vanish from
the normalized output, leaving exactly the surrounding text. -/
theorem htmlToText_script_removed (pre body post : List Char)
    (h1 : occursCI scriptOpen pre = false)
    (h2 : occursCI scriptClose body = false) :
    htmlToText (pre ++ scriptOpen ++ '>' :: body ++ scriptClose ++ post)
      = htmlToText (pre ++ ' ' :: post) := by
  have hpre : NoStartIn scriptOpen pre
      (scriptOpen ++ '>' :: body ++ scriptClose ++ post) :=
    noStartIn_mk _ _ _ h1 (fun n hn0 hn7 => scriptOpen_drop_lt _ n hn0 hn7)
  have hpre' : NoStartIn scriptOpen pre (' ' :: post) :=
    noStartIn_mk _ _ _ h1 (fun n hn0 hn7 => scriptOpen_drop_sp _ n hn0 hn7)
  have hcl : NoStartIn scriptClose ('>' :: body) (scriptClose ++ post) := by
    have hgt : NoStartIn scriptClose ['>']
        (body ++ (scriptClose ++ post)) :=
      noStartIn_single _ _ _ (isPrefixCI_head_false _ _ _ _ (by decide))
    have hbody : NoStartIn scriptClose body (scriptClose ++ post) :=
      noStartIn_mk _ _ _ h2 (fun n hn0 hn9 => scriptClose_drop_lt _ n hn0 hn9)
    exact noStartIn_append scriptClose ['>'] body (scriptClose ++ post)
      hgt hbody
  have hrm := stripBlocks_removed scriptOpen scriptClose '<'
    ['s', 'c', 'r', 'i', 'p', 't'] rfl (by simp [scriptClose])
    pre body post hpre hpre' (by decide) hcl
  unfold htmlToText
  rw [hrm]

/-- No occurrence of `<script` starts inside a literal `</style>`. -/
theorem styleClose_region_script (b : List Char) :
    NoStartIn scriptOpen styleClose b := by
  intro i hi
  simp only [styleClose, List.length_cons, List.length_nil] at hi
  interval_cases i
  · exact isPrefixCI_false_at1 _ _ _ _ _ _ (by decide)
  · exact isPrefixCI_head_false _ _ _ _ (by decide)
  · exact isPrefixCI_head_false _ _ _ _ (by decide)
  · exact isPrefixCI_head_false _ _ _ _ (by decide)
  · exact isPrefixCI_head_false _ _ _ _ (by decide)
  · exact isPrefixCI_head_false _ _ _ _ (by decide)
  · exact isPrefixCI_head_false _ _ _ _ (by decide)
  · exact isPrefixCI_head_false _ _ _ _ (by decide)

/-- No occurrence of `<script` starts inside a literal `<style`. -/
theorem styleOpen_region_script (b : List Char) :
    NoStartIn scriptOpen styleOpen b := by
  intro i hi
  simp only [styleOpen, List.length_cons, List.length_nil] at hi
  interval_cases i
  · exact isPrefixCI_false_at2 _ _ _ _ _ _ _ _ (by decide)
  · exact isPrefixCI_head_false _ _ _ _ (by decide)
  · exact isPrefixCI_head_false _ _ _ _ (by decide)
  · exact isPrefixCI_head_false _ _ _ _ (by decide)
  · exact isPrefixCI_head_false _ _ _ _ (by decide)
  · exact isPrefixCI_head_false _ _ _ _ (by decide)

/-- C8, style half: a `<style>` block and everything inside it vanish from
the normalized output (the surrounding text being free of `<script`, so the
earlier script pass leaves the text alone). -/
theorem htmlToText_style_removed (pre body post : List Char)
    (hs1 : occursCI scriptOpen pre = false)
    (hs2 : occursCI scriptOpen body = false)
    (hs3 : occursCI scriptOpen post = false)
    (h1 : occursCI styleOpen pre = false)
    (h2 : occursCI styleClose body = false) :
    htmlToText (pre ++ styleOpen ++ '>' :: body ++ styleClose ++ post)
      = htmlToText (pre ++ ' ' :: post) := by
  have P_post : NoStartIn scriptOpen post [] :=
    noStartIn_mk _ _ _ hs3 (fun n a b => scriptOpen_drop_nil n a b)
  have N1 : NoStartIn scriptOpen (styleClose ++ post) [] :=
    noStartIn_append scriptOpen styleClose post []
      (styleClose_region_script _) P_post
  have N2 : NoStartIn scriptOpen (body ++ (styleClose ++ post)) [] :=
    noStartIn_append scriptOpen body (styleClose ++ post) []
      (noStartIn_mk _ _ _ hs2 (fun n a b => scriptOpen_drop_lt _ n a b)) N1
  have N3 : NoStartIn scriptOpen ('>' :: (body ++ (styleClose ++ post))) [] :=
    noStartIn_append scriptOpen ['>'] (body ++ (styleClose ++ post)) []
      (noStartIn_single _ _ _ (isPrefixCI_head_false _ _ _ _ (by decide))) N2
  have N4 : NoStartIn scriptOpen
      (styleOpen ++ ('>' :: (body ++ (styleClose ++ post)))) [] :=
    noStartIn_append scriptOpen styleOpen _ []
      (styleOpen_region_script _) N3
  have N5 : NoStartIn scriptOpen
      (pre ++ (styleOpen ++ ('>' :: (body ++ (styleClose ++ post))))) [] :=
    noStartIn_append scriptOpen pre _ []
      (noStartIn_mk _ _ _ hs1 (fun n a b => scriptOpen_drop_lt _ n a b)) N4
  have N' : NoStartIn scriptOpen (pre ++ ' ' :: post) [] :=
    noStartIn_append scriptOpen pre (' ' :: post) []
      (noStartIn_mk _ _ _ hs1 (fun n a b => scriptOpen_drop_sp _ n a b))
      (noStartIn_append scriptOpen [' '] post []
        (noStartIn_single _ _ _ (isPrefixCI_head_false _ _ _ _ (by decide)))
        P_post)
  have hid1 : stripBlocks scriptOpen scriptClose
      (pre ++ styleOpen ++ '>' :: body ++ styleClose ++ post)
      = pre ++ styleOpen ++ '>' :: body ++ styleClose ++ post := by
    have heq : pre ++ styleOpen ++ '>' :: body ++ styleClose ++ post
        = pre ++ (styleOpen ++ ('>' :: (body ++ (styleClose ++ post)))) := by
      simp
    rw [heq]
    exact stripBlocks_id_of _ _ _ N5
  have hid2 : stripBlocks scriptOpen scriptClose (pre ++ ' ' :: post)
      = pre ++ ' ' :: post :=
    stripBlocks_id_of _ _ _ N'
  have hpre : NoStartIn styleOpen pre
      (styleOpen ++ '>' :: body ++ styleClose ++ post) :=
    noStartIn_mk _ _ _ h1 (fun n a b => styleOpen_drop_lt _ n a b)
  have hpre' : NoStartIn styleOpen pre (' ' :: post) :=
    noStartIn_mk _ _ _ h1 (fun n a b => styleOpen_drop_sp _ n a b)
  have hcl : NoStartIn styleClose ('>' :: body) (styleClose ++ post) :=
    noStartIn_append styleClose ['>'] body (styleClose ++ post)
      (noStartIn_single _ _ _ (isPrefixCI_head_false _ _ _ _ (by decide)))
      (noStartIn_mk _ _ _ h2 (fun n a b => styleClose_drop_lt _ n a b))
  have hrm := stripBlocks_removed styleOpen styleClose '<'
    ['s', 't', 'y', 'l', 'e'] rfl (by simp [styleClose])
    pre body post hpre hpre' (by decide) hcl
  unfold htmlToText
  rw [hid1, hid2, hrm]

/-- C8: no content that lay inside a `<script>` or `<style>` block survives
normalization — the normalized output equals that of the surrounding text
with the whole block replaced by a space, whatever the block contained
(angle brackets and the word `Full` included). -/
theorem C8_block_content_never_survives :
    (∀ pre body post : List Char,
      occursCI scriptOpen pre = false → occursCI scriptClose body = false →
      htmlToText (pre ++ scriptOpen ++ '>' :: body ++ scriptClose ++ post)
        = htmlToText (pre ++ ' ' :: post)) ∧
    (∀ pre body post : List Char,
      occursCI scriptOpen pre = false → occursCI scriptOpen body = false →
      occursCI scriptOpen post = false → occursCI styleOpen pre = false →
      occursCI styleClose body = false →
      htmlToText (pre ++ styleOpen ++ '>' :: body ++ styleClose ++ post)
        = htmlToText (pre ++ ' ' :: post)) :=
  ⟨htmlToText_script_removed, htmlToText_style_removed⟩

/-- C8 witness: a script block whose body contains angle brackets and the
word `Full` leaves no trace. -/
theorem C8_block_content_never_survives_witness :
    htmlToText ("a ".data ++ scriptOpen ++ '>' ::
        "x <b>Full</b> 77%".data ++ scriptClose ++ " b".data)
      = htmlToText ("a ".data ++ ' ' :: " b".data) :=
  C8_block_content_never_survives.1 "a ".data "x <b>Full</b> 77%".data
    " b".data (by decide) (by decide)

/-! ### C9: idempotence of `htmlToText` -/

/-- Does the text contain a `<[^>]+>` match? -/
def containsTag : List Char → Bool
  | [] => false
  | c :: cs => (if c = '<' then (findTagEnd cs).isSome else false) || containsTag cs

/-- Does the text begin with the literal `&nbsp;`? -/
def startsNbsp (s : List Char) : Bool :=
  decide (s.take 6 = ['&', 'n', 'b', 's', 'p', ';'])

/-- Does the literal `&nbsp;` occur anywhere in the text? -/
def hasNbsp : List Char → Bool
  | [] => false
  | c :: cs => startsNbsp (c :: cs) || hasNbsp cs

theorem matchCI_eq_drop : ∀ (pat s r : List Char), matchCI pat s = some r →
    r = s.drop pat.length := by
  intro pat
  induction pat with
  | nil => intro s r h; simp [matchCI] at h; simp [h]
  | cons p ps ih =>
    intro s r h
    cases s with
    | nil => simp [matchCI] at h
    | cons c cs =>
      simp only [matchCI] at h
      split at h
      · simpa using ih cs r h
      · exact absurd h (by simp)

theorem occursCI_drop_false : ∀ (s : List Char) (pat : List Char) (n : Nat),
    occursCI pat s = false → occursCI pat (s.drop n) = false := by
  intro s
  induction s with
  | nil => intro pat n h; simpa [List.drop_nil] using h
  | cons c cs ih =>
    intro pat n h
    simp only [occursCI, Bool.or_eq_false_iff] at h
    cases n with
    | zero => simpa [occursCI] using (by simp [h.1, h.2] : _)
    | succ m => exact ih pat m h.2

theorem findCloseCI_none_of_no_occur (cp : List Char) :
    ∀ (s : List Char), occursCI cp s = false → findCloseCI cp s = none := by
  intro s
  induction s with
  | nil => intro _; rfl
  | cons c cs ih =>
    intro h
    simp only [occursCI, Bool.or_eq_false_iff] at h
    simp only [findCloseCI, matchCI_none_of_not_prefixCI h.1]
    exact ih h.2

/-- When the close pattern occurs nowhere, the block pass copies the text
unchanged. -/
theorem stripBlocksGo_id_noclose (op cp : List Char) :
    ∀ (n : Nat) (s : List Char), s.length ≤ n → ∀ f, s.length ≤ f →
    occursCI cp s = false → stripBlocksGo op cp f s = s := by
  intro n
  induction n with
  | zero =>
    intro s hs f _ _
    have : s = [] := List.length_eq_zero.mp (Nat.le_zero.mp hs)
    subst this
    exact stripBlocksGo_nil op cp f
  | succ m ih =>
    intro s hs f hf hocc
    cases s with
    | nil => exact stripBlocksGo_nil op cp f
    | cons c cs =>
      cases f with
      | zero => simp at hf
      | succ g =>
        have htl : occursCI cp cs = false := by
          simp only [occursCI, Bool.or_eq_false_iff] at hocc
          exact hocc.2
        cases hm : matchCI op (c :: cs) with
        | none =>
          simp only [stripBlocksGo_succ_cons, hm]
          rw [ih cs (by simp at hs; omega) g (by simp at hf; omega) htl]
        | some rest =>
          have hrest : rest = (c :: cs).drop op.length :=
            matchCI_eq_drop op (c :: cs) rest hm
          have hro : occursCI cp rest = false := by
            rw [hrest]
            exact occursCI_drop_false (c :: cs) cp op.length hocc
          simp only [stripBlocksGo_succ_cons, hm,
            findCloseCI_none_of_no_occur cp rest hro]
          rw [ih cs (by simp at hs; omega) g (by simp at hf; omega) htl]

theorem stripBlocks_id_noclose (op cp s : List Char)
    (h : occursCI cp s = false) : stripBlocks op cp s = s :=
  stripBlocksGo_id_noclose op cp s.length s (le_refl _) s.length (le_refl _) h

theorem asciiLower_eq_nonletter (c x : Char) (hx : ¬(97 ≤ x.toNat ∧ x.toNat ≤ 122))
    (h : asciiLower c = x) : c = x := by
  by_cases hu : 65 ≤ c.toNat ∧ c.toNat ≤ 90
  · exfalso
    have := congrArg Char.toNat h
    rw [asciiLower_toNat_upper c hu] at this
    omega
  · rwa [asciiLower_eq_self c hu] at h

theorem lowEq_eq_of_symbol (p c : Char) (hp : ¬(97 ≤ (asciiLower p).toNat ∧
    (asciiLower p).toNat ≤ 122)) (h : lowEq p c = true) : c = asciiLower p := by
  have he : asciiLower p = asciiLower c := by simpa [lowEq] using h
  exact asciiLower_eq_nonletter c (asciiLower p) hp he.symm

theorem ne_gt_of_lowEq (p c : Char) (hp : asciiLower p ≠ '>') (h : lowEq p c = true) :
    c ≠ '>' := by
  intro he
  subst he
  have : asciiLower p = asciiLower '>' := by simpa [lowEq] using h
  rw [show asciiLower '>' = '>' from by decide] at this
  exact hp this

theorem gtMem_of_prefixCI : ∀ (mid cs : List Char),
    isPrefixCI (mid ++ ['>']) cs = true → ('>' : Char) ∈ cs := by
  intro mid
  induction mid with
  | nil =>
    intro cs h
    cases cs with
    | nil => simp [isPrefixCI] at h
    | cons c cs' =>
      simp only [List.nil_append, isPrefixCI, Bool.and_eq_true] at h
      have : c = '>' := lowEq_eq_of_symbol '>' c (by decide) h.1
      simp [this]
  | cons m mid' ih =>
    intro cs h
    cases cs with
    | nil => simp [isPrefixCI] at h
    | cons c cs' =>
      simp only [List.cons_append, isPrefixCI, Bool.and_eq_true] at h
      exact List.mem_cons_of_mem c (ih cs' h.2)

theorem afterGt_isSome_of_mem : ∀ (s : List Char), ('>' : Char) ∈ s →
    (afterGt s).isSome = true := by
  intro s
  induction s with
  | nil => intro h; simp at h
  | cons c cs ih =>
    intro h
    simp only [afterGt]
    by_cases hc : c = '>'
    · rw [if_pos hc]; rfl
    · rw [if_neg hc]
      rcases List.mem_cons.mp h with he | hm
      · exact absurd he.symm hc
      · exact ih hm

theorem findTagEnd_isSome_of_tag (mid cs : List Char) (hmid : mid ≠ [])
    (hm : ∀ p ∈ mid, asciiLower p ≠ '>')
    (h : isPrefixCI (mid ++ ['>']) cs = true) : (findTagEnd cs).isSome = true := by
  cases mid with
  | nil => exact absurd rfl hmid
  | cons m mid' =>
    cases cs with
    | nil => simp [isPrefixCI] at h
    | cons c cs' =>
      simp only [List.cons_append, isPrefixCI, Bool.and_eq_true] at h
      have hcne : c ≠ '>' := ne_gt_of_lowEq m c (hm m (by simp)) h.1
      simp only [findTagEnd, if_neg hcne]
      exact afterGt_isSome_of_mem cs' (gtMem_of_prefixCI mid' cs' h.2)

/-- A case-insensitive occurrence of a pattern of the shape `<…>` (with a
nonempty, `>`-free middle) is a tag match. -/
theorem containsTag_of_occursCI (mid : List Char) (hmid : mid ≠ [])
    (hm : ∀ p ∈ mid, asciiLower p ≠ '>') :
    ∀ (s : List Char), occursCI ('<' :: mid ++ ['>']) s = true →
    containsTag s = true := by
  intro s
  induction s with
  | nil => intro h; simp [occursCI, isPrefixCI] at h
  | cons c cs ih =>
    intro h
    simp only [occursCI, Bool.or_eq_true] at h
    rcases h with h | h
    · simp only [isPrefixCI, Bool.and_eq_true] at h
      have hc : c = '<' := lowEq_eq_of_symbol '<' c (by decide) h.1
      simp only [containsTag, hc, if_pos rfl, Bool.or_eq_true]
      exact Or.inl (findTagEnd_isSome_of_tag mid cs hmid hm h.2)
    · simp only [containsTag, Bool.or_eq_true]
      exact Or.inr (ih h)

theorem occursCI_scriptClose_false_of_tagfree (s : List Char)
    (h : containsTag s = false) : occursCI scriptClose s = false := by
  cases hocc : occursCI scriptClose s with
  | false => rfl
  | true =>
    exfalso
    have := containsTag_of_occursCI ['/', 's', 'c', 'r', 'i', 'p', 't']
      (by simp) (by decide) s (by simpa [scriptClose] using hocc)
    rw [h] at this
    exact absurd this (by simp)

theorem occursCI_styleClose_false_of_tagfree (s : List Char)
    (h : containsTag s = false) : occursCI styleClose s = false := by
  cases hocc : occursCI styleClose s with
  | false => rfl
  | true =>
    exfalso
    have := containsTag_of_occursCI ['/', 's', 't', 'y', 'l', 'e']
      (by simp) (by decide) s (by simpa [styleClose] using hocc)
    rw [h] at this
    exact absurd this (by simp)

theorem stripTagsGo_nil (f : Nat) : stripTagsGo f [] = [] := by
  cases f <;> rfl

theorem stripTagsGo_succ_cons (f : Nat) (c : Char) (cs : List Char) :
    stripTagsGo (f + 1) (c :: cs) =
    (if c = '<' then
      match findTagEnd cs with
      | some rest => ' ' :: stripTagsGo f rest
      | none => c :: stripTagsGo f cs
     else c :: stripTagsGo f cs) := rfl

theorem afterGt_mem : ∀ (l r : List Char), afterGt l = some r →
    ∀ a ∈ r, a ∈ l := by
  intro l
  induction l with
  | nil => intro r h; simp [afterGt] at h
  | cons c cs ih =>
    intro r h a ha
    simp only [afterGt] at h
    split at h
    · cases h; exact List.mem_cons_of_mem c ha
    · exact List.mem_cons_of_mem c (ih r h a ha)

theorem findTagEnd_mem (cs r : List Char) (h : findTagEnd cs = some r) :
    ∀ a ∈ r, a ∈ cs := by
  cases cs with
  | nil => simp [findTagEnd] at h
  | cons c cs' =>
    simp only [findTagEnd] at h
    split at h
    · exact absurd h (by simp)
    · exact fun a ha => List.mem_cons_of_mem c (afterGt_mem cs' r h a ha)

theorem afterGt_none_iff : ∀ (l : List Char), afterGt l = none ↔ ('>' : Char) ∉ l := by
  intro l
  induction l with
  | nil => simp [afterGt]
  | cons c cs ih =>
    simp only [afterGt, List.mem_cons]
    by_cases hc : c = '>'
    · rw [if_pos hc]
      simp [hc]
    · rw [if_neg hc]
      rw [ih]
      constructor
      · intro h hc2
        rcases hc2 with h2 | h2
        · exact hc h2.symm
        · exact h h2
      · intro h hm
        exact h (Or.inr hm)

theorem findTagEnd_none_of_gtfree (l : List Char) (h : ∀ a ∈ l, a ≠ '>') :
    findTagEnd l = none := by
  cases l with
  | nil => rfl
  | cons c cs =>
    simp only [findTagEnd]
    rw [if_neg (h c (by simp))]
    exact (afterGt_none_iff cs).mpr (fun hm => h '>' (by simp [hm]) rfl)

theorem stripTagsGo_mem : ∀ (n : Nat) (s : List Char), s.length ≤ n →
    ∀ f, ∀ a ∈ stripTagsGo f s, a ∈ s ∨ a = ' ' := by
  intro n
  induction n with
  | zero =>
    intro s hs f a ha
    have : s = [] := List.length_eq_zero.mp (Nat.le_zero.mp hs)
    subst this
    rw [stripTagsGo_nil] at ha
    simp at ha
  | succ m ih =>
    intro s hs f a ha
    cases s with
    | nil => rw [stripTagsGo_nil] at ha; simp at ha
    | cons c cs =>
      cases f with
      | zero => exact Or.inl ha
      | succ g =>
        rw [stripTagsGo_succ_cons] at ha
        by_cases hc : c = '<'
        · rw [if_pos hc] at ha
          cases hend : findTagEnd cs with
          | some rest =>
            rw [hend] at ha
            rcases List.mem_cons.mp ha with rfl | ha'
            · exact Or.inr rfl
            · have hlen : rest.length ≤ m := by
                have := findTagEnd_length_lt cs rest hend
                simp at hs
                omega
              rcases ih rest hlen g a ha' with hm | hsp
              · exact Or.inl (List.mem_cons_of_mem c (findTagEnd_mem cs rest hend a hm))
              · exact Or.inr hsp
          | none =>
            rw [hend] at ha
            rcases List.mem_cons.mp ha with rfl | ha'
            · exact Or.inl (by simp)
            · rcases ih cs (by simp at hs; omega) g a ha' with hm | hsp
              · exact Or.inl (List.mem_cons_of_mem c hm)
              · exact Or.inr hsp
        · rw [if_neg hc] at ha
          rcases List.mem_cons.mp ha with rfl | ha'
          · exact Or.inl (by simp)
          · rcases ih cs (by simp at hs; omega) g a ha' with hm | hsp
            · exact Or.inl (List.mem_cons_of_mem c hm)
            · exact Or.inr hsp

theorem findTagEnd_none_elim (cs : List Char) (h : findTagEnd cs = none) :
    cs = [] ∨ (∃ ds, cs = '>' :: ds) ∨
      (∃ d ds, cs = d :: ds ∧ d ≠ '>' ∧ ('>' : Char) ∉ ds) := by
  cases cs with
  | nil => exact Or.inl rfl
  | cons c cs' =>
    simp only [findTagEnd] at h
    by_cases hc : c = '>'
    · exact Or.inr (Or.inl ⟨cs', by rw [hc]⟩)
    · rw [if_neg hc] at h
      exact Or.inr (Or.inr ⟨c, cs', rfl, hc, (afterGt_none_iff cs').mp h⟩)

theorem stripTagsGo_gtfree (s : List Char) (h : ('>' : Char) ∉ s) (f : Nat) :
    findTagEnd (stripTagsGo f s) = none := by
  apply findTagEnd_none_of_gtfree
  intro a ha he
  subst he
  rcases stripTagsGo_mem s.length s (le_refl _) f '>' ha with hm | hsp
  · exact h hm
  · exact absurd hsp (by decide)

/-- The tag pass leaves no `<[^>]+>` match behind. -/
theorem stripTagsGo_kills : ∀ (n : Nat) (s : List Char), s.length ≤ n →
    ∀ f, s.length ≤ f → containsTag (stripTagsGo f s) = false := by
  intro n
  induction n with
  | zero =>
    intro s hs f _
    have : s = [] := List.length_eq_zero.mp (Nat.le_zero.mp hs)
    subst this
    rw [stripTagsGo_nil]
    rfl
  | succ m ih =>
    intro s hs f hf
    cases s with
    | nil => rw [stripTagsGo_nil]; rfl
    | cons c cs =>
      cases f with
      | zero => simp at hf
      | succ g =>
        rw [stripTagsGo_succ_cons]
        by_cases hc : c = '<'
        · rw [if_pos hc]
          cases hend : findTagEnd cs with
          | some rest =>
            have hlen : rest.length ≤ m := by
              have := findTagEnd_length_lt cs rest hend
              simp at hs
              omega
            have hlenf : rest.length ≤ g := by
              have := findTagEnd_length_lt cs rest hend
              simp at hf
              omega
            simp only [containsTag, Bool.or_eq_false_iff]
            refine ⟨by simp, ih rest hlen g hlenf⟩
          | none =>
            simp only [containsTag, Bool.or_eq_false_iff]
            constructor
            · rw [if_pos hc]
              rcases findTagEnd_none_elim cs hend with rfl | ⟨ds, rfl⟩ | ⟨d, ds, rfl, hd, hgt⟩
              · rw [stripTagsGo_nil]; rfl
              · cases g with
                | zero => rfl
                | succ g' =>
                  rw [stripTagsGo_succ_cons, if_neg (by decide)]
                  rfl
              · have hfree : ('>' : Char) ∉ d :: ds := by
                  intro hm
                  rcases List.mem_cons.mp hm with he | hm'
                  · exact hd he.symm
                  · exact hgt hm'
                rw [stripTagsGo_gtfree (d :: ds) hfree g]
                rfl
            · exact ih cs (by simp at hs; omega) g (by simp at hf; omega)
        · rw [if_neg hc]
          simp only [containsTag, Bool.or_eq_false_iff]
          exact ⟨by simp [hc], ih cs (by simp at hs; omega) g (by simp at hf; omega)⟩

/-- The tag pass is the identity on tag-free text. -/
theorem stripTagsGo_id : ∀ (s : List Char) (f : Nat), s.length ≤ f →
    containsTag s = false → stripTagsGo f s = s := by
  intro s
  induction s with
  | nil => intro f _ _; exact stripTagsGo_nil f
  | cons c cs ih =>
    intro f hf h
    cases f with
    | zero => simp at hf
    | succ g =>
      simp only [containsTag, Bool.or_eq_false_iff] at h
      rw [stripTagsGo_succ_cons]
      by_cases hc : c = '<'
      · rw [if_pos hc]
        have : (findTagEnd cs).isSome = false := by
          have := h.1
          rwa [if_pos hc] at this
        have hnone : findTagEnd cs = none :=
          Option.not_isSome_iff_eq_none.mp (by simp [this])
        rw [hnone, ih g (by simp at hf; omega) h.2]
      · rw [if_neg hc, ih g (by simp at hf; omega) h.2]

theorem stripNbspGo_nil (f : Nat) : stripNbspGo f [] = [] := by
  cases f <;> rfl

theorem stripNbspGo_zero (s : List Char) : stripNbspGo 0 s = s := by
  cases s <;> rfl

theorem stripNbspGo_succ_cons (f : Nat) (c : Char) (cs : List Char) :
    stripNbspGo (f + 1) (c :: cs) =
    (if c = '&' ∧ cs.take 5 = ['n', 'b', 's', 'p', ';']
     then ' ' :: stripNbspGo f (cs.drop 5)
     else c :: stripNbspGo f cs) := rfl

theorem startsNbsp_cons (c : Char) (cs : List Char) :
    startsNbsp (c :: cs) = true ↔
      (c = '&' ∧ cs.take 5 = ['n', 'b', 's', 'p', ';']) := by
  simp [startsNbsp, List.take_succ_cons]

/-- A whitespace-free pattern appearing at the head of the nbsp pass's
output already appeared at the head of its input. -/
theorem stripNbspGo_take_back : ∀ (n : Nat) (cs : List Char), cs.length ≤ n →
    ∀ (pat : List Char) (f : Nat), (' ' : Char) ∉ pat →
    (stripNbspGo f cs).take pat.length = pat → cs.take pat.length = pat := by
  intro n
  induction n with
  | zero =>
    intro cs hcs pat f _ h
    have : cs = [] := List.length_eq_zero.mp (Nat.le_zero.mp hcs)
    subst this
    rwa [stripNbspGo_nil] at h
  | succ m ih =>
    intro cs hcs pat f hsp h
    cases cs with
    | nil => rwa [stripNbspGo_nil] at h
    | cons c cs' =>
      cases f with
      | zero => exact h
      | succ g =>
        rw [stripNbspGo_succ_cons] at h
        split at h
        · cases pat with
          | nil => rfl
          | cons p pat' =>
            rw [List.length_cons, List.take_succ_cons] at h
            have hp : p = ' ' := by
              have := congrArg (fun l => l.head?) h.symm
              simpa using this
            subst hp
            exact absurd (List.mem_cons_self _ _) hsp
        · cases pat with
          | nil => rfl
          | cons p pat' =>
            rw [List.length_cons, List.take_succ_cons] at h
            have hh : c = p ∧ (stripNbspGo g cs').take pat'.length = pat' := by
              constructor
              · have := congrArg (fun l => l.head?) h
                simpa using this
              · have := congrArg (fun l => l.tail) h
                simpa using this
            rw [List.length_cons, List.take_succ_cons, hh.1]
            rw [ih cs' (by simp at hcs; omega) pat' g
              (fun hm => hsp (List.mem_cons_of_mem p hm)) hh.2]

/-- The nbsp pass leaves no `&nbsp;` behind. -/
theorem stripNbspGo_kills : ∀ (n : Nat) (cs : List Char), cs.length ≤ n →
    ∀ f, cs.length ≤ f → hasNbsp (stripNbspGo f cs) = false := by
  intro n
  induction n with
  | zero =>
    intro cs hcs f _
    have : cs = [] := List.length_eq_zero.mp (Nat.le_zero.mp hcs)
    subst this
    rw [stripNbspGo_nil]
    rfl
  | succ m ih =>
    intro cs hcs f hf
    cases cs with
    | nil => rw [stripNbspGo_nil]; rfl
    | cons c cs' =>
      cases f with
      | zero => simp at hf
      | succ g =>
        rw [stripNbspGo_succ_cons]
        split
        · rename_i hcond
          simp only [hasNbsp, Bool.or_eq_false_iff]
          constructor
          · cases hs : startsNbsp (' ' :: stripNbspGo g (cs'.drop 5)) with
            | false => rfl
            | true =>
              exfalso
              have := (startsNbsp_cons _ _).mp hs
              exact absurd this.1 (by decide)
          · have hlen : (cs'.drop 5).length ≤ m := by
              have := cs'.length_drop 5
              simp at hcs
              omega
            exact ih (cs'.drop 5) hlen g (by
              have := cs'.length_drop 5
              simp at hf
              omega)
        · rename_i hcond
          simp only [hasNbsp, Bool.or_eq_false_iff]
          constructor
          · cases hs : startsNbsp (c :: stripNbspGo g cs') with
            | false => rfl
            | true =>
              exfalso
              have hh := (startsNbsp_cons _ _).mp hs
              have := stripNbspGo_take_back cs'.length cs' (le_refl _)
                ['n', 'b', 's', 'p', ';'] g (by decide) hh.2
              exact hcond ⟨hh.1, this⟩
          · exact ih cs' (by simp at hcs; omega) g (by simp at hf; omega)

/-- The nbsp pass is the identity on `&nbsp;`-free text. -/
theorem stripNbspGo_id : ∀ (cs : List Char) (f : Nat), cs.length ≤ f →
    hasNbsp cs = false → stripNbspGo f cs = cs := by
  intro cs
  induction cs with
  | nil => intro f _ _; exact stripNbspGo_nil f
  | cons c cs' ih =>
    intro f hf h
    cases f with
    | zero => simp at hf
    | succ g =>
      simp only [hasNbsp, Bool.or_eq_false_iff] at h
      rw [stripNbspGo_succ_cons]
      rw [if_neg (fun hc => by
        rw [(startsNbsp_cons c cs').mpr hc] at h
        exact absurd h.1 (by simp))]
      rw [ih g (by simp at hf; omega) h.2]

theorem stripNbspGo_mem : ∀ (n : Nat) (s : List Char), s.length ≤ n →
    ∀ f, ∀ a ∈ stripNbspGo f s, a ∈ s ∨ a = ' ' := by
  intro n
  induction n with
  | zero =>
    intro s hs f a ha
    have : s = [] := List.length_eq_zero.mp (Nat.le_zero.mp hs)
    subst this
    rw [stripNbspGo_nil] at ha
    simp at ha
  | succ m ih =>
    intro s hs f a ha
    cases s with
    | nil => rw [stripNbspGo_nil] at ha; simp at ha
    | cons c cs =>
      cases f with
      | zero => exact Or.inl ha
      | succ g =>
        rw [stripNbspGo_succ_cons] at ha
        split at ha
        · rcases List.mem_cons.mp ha with rfl | ha'
          · exact Or.inr rfl
          · have hlen : (cs.drop 5).length ≤ m := by
              have := cs.length_drop 5
              simp at hs
              omega
            rcases ih (cs.drop 5) hlen g a ha' with hm | hsp
            · exact Or.inl (List.mem_cons_of_mem c (List.mem_of_mem_drop hm))
            · exact Or.inr hsp
        · rcases List.mem_cons.mp ha with rfl | ha'
          · exact Or.inl (by simp)
          · rcases ih cs (by simp at hs; omega) g a ha' with hm | hsp
            · exact Or.inl (List.mem_cons_of_mem c hm)
            · exact Or.inr hsp

theorem containsTag_tail (c : Char) (cs : List Char)
    (h : containsTag (c :: cs) = false) : containsTag cs = false := by
  simp only [containsTag, Bool.or_eq_false_iff] at h
  exact h.2

theorem containsTag_drop (s : List Char) (h : containsTag s = false) :
    ∀ n, containsTag (s.drop n) = false := by
  induction s with
  | nil => intro n; simpa [List.drop_nil] using h
  | cons c cs ih =>
    intro n
    cases n with
    | zero => simpa using h
    | succ m => exact ih (containsTag_tail c cs h) m

/-- The nbsp pass preserves tag-freeness. -/
theorem stripNbspGo_tagfree : ∀ (n : Nat) (s : List Char), s.length ≤ n →
    ∀ f, containsTag s = false → containsTag (stripNbspGo f s) = false := by
  intro n
  induction n with
  | zero =>
    intro s hs f _
    have : s = [] := List.length_eq_zero.mp (Nat.le_zero.mp hs)
    subst this
    rw [stripNbspGo_nil]
    rfl
  | succ m ih =>
    intro s hs f h
    cases s with
    | nil => rw [stripNbspGo_nil]; rfl
    | cons c cs =>
      cases f with
      | zero => exact h
      | succ g =>
        simp only [containsTag, Bool.or_eq_false_iff] at h
        rw [stripNbspGo_succ_cons]
        split
        · simp only [containsTag, Bool.or_eq_false_iff]
          refine ⟨by simp, ?_⟩
          have hlen : (cs.drop 5).length ≤ m := by
            have := cs.length_drop 5
            simp at hs
            omega
          exact ih (cs.drop 5) hlen g (containsTag_drop cs h.2 5)
        · simp only [containsTag, Bool.or_eq_false_iff]
          constructor
          · by_cases hc : c = '<'
            · rw [if_pos hc]
              have hnone : findTagEnd cs = none := by
                have := h.1
                rw [if_pos hc] at this
                exact Option.not_isSome_iff_eq_none.mp (by simp [this])
              rcases findTagEnd_none_elim cs hnone with rfl | ⟨ds, rfl⟩ | ⟨d, ds, rfl, hd, hgt⟩
              · rw [stripNbspGo_nil, hnone]; rfl
              · cases g with
                | zero => rw [stripNbspGo_zero, hnone]; rfl
                | succ g' =>
                  rw [stripNbspGo_succ_cons, if_neg (by
                    rintro ⟨he, -⟩
                    exact absurd he (by decide))]
                  simp [findTagEnd]
              · have hfree : ∀ a ∈ stripNbspGo g (d :: ds), a ≠ '>' := by
                  intro a ha he
                  subst he
                  rcases stripNbspGo_mem (d :: ds).length (d :: ds) (le_refl _)
                    g '>' ha with hm | hsp
                  · rcases List.mem_cons.mp hm with he' | hm'
                    · exact hd he'.symm
                    · exact hgt hm'
                  · exact absurd hsp (by decide)
                rw [findTagEnd_none_of_gtfree _ hfree]
                simp
            · rw [if_neg hc]
          · exact ih cs (by simp at hs; omega) g h.2

/-- Whitespace-normal form: every whitespace character is a plain space, and
no two adjacent characters are both whitespace. -/
def wsNorm (s : List Char) : Prop :=
  (∀ c ∈ s, isWsJS c = true → c = ' ') ∧
  s.Chain' (fun a b => ¬(isWsJS a = true ∧ isWsJS b = true))

theorem wsNorm_nil : wsNorm [] := ⟨by simp, List.chain'_nil⟩

theorem wsNorm_tail (c : Char) (cs : List Char) (h : wsNorm (c :: cs)) :
    wsNorm cs :=
  ⟨fun a ha hw => h.1 a (List.mem_cons_of_mem c ha) hw,
   (List.chain'_cons'.mp h.2).2⟩

theorem collapseAux_nil (b : Bool) : collapseAux b [] = [] := rfl

theorem collapseAux_cons (b : Bool) (c : Char) (cs : List Char) :
    collapseAux b (c :: cs) =
    (if isWsJS c then
       if b then collapseAux true cs else ' ' :: collapseAux true cs
     else c :: collapseAux false cs) := rfl

theorem collapseAux_head_true : ∀ (s : List Char) (c : Char),
    (collapseAux true s).head? = some c → isWsJS c = false := by
  intro s
  induction s with
  | nil => intro c h; simp [collapseAux_nil] at h
  | cons d ds ih =>
    intro c h
    rw [collapseAux_cons] at h
    by_cases hw : isWsJS d = true
    · rw [if_pos hw, if_pos rfl] at h
      exact ih c h
    · rw [if_neg hw] at h
      simp only [List.head?_cons, Option.some.injEq] at h
      subst h
      simpa using hw

/-- The collapse pass produces whitespace-normal text. -/
theorem collapseAux_wsNorm : ∀ (s : List Char) (b : Bool),
    wsNorm (collapseAux b s) := by
  intro s
  induction s with
  | nil => intro b; rw [collapseAux_nil]; exact wsNorm_nil
  | cons c cs ih =>
    intro b
    rw [collapseAux_cons]
    by_cases hw : isWsJS c = true
    · rw [if_pos hw]
      cases b with
      | true => exact ih true
      | false =>
        rw [if_neg (by simp)]
        refine ⟨?_, ?_⟩
        · intro a ha hwa
          rcases List.mem_cons.mp ha with rfl | ha'
          · rfl
          · exact (ih true).1 a ha' hwa
        · rw [List.chain'_cons']
          refine ⟨?_, (ih true).2⟩
          intro y hy hcon
          have := collapseAux_head_true cs y (Option.mem_def.mp hy)
          rw [this] at hcon
          exact absurd hcon.2 (by simp)
    · rw [if_neg hw]
      refine ⟨?_, ?_⟩
      · intro a ha hwa
        rcases List.mem_cons.mp ha with rfl | ha'
        · exact absurd hwa hw
        · exact (ih false).1 a ha' hwa
      · rw [List.chain'_cons']
        refine ⟨?_, (ih false).2⟩
        intro y _ hcon
        exact hw hcon.1

/-- The collapse pass is the identity on whitespace-normal text whose head is
not whitespace when the previous character was. -/
theorem collapseAux_id : ∀ (s : List Char) (b : Bool), wsNorm s →
    (b = true → ∀ c, s.head? = some c → isWsJS c = false) →
    collapseAux b s = s := by
  intro s
  induction s with
  | nil => intro b _ _; exact collapseAux_nil b
  | cons c cs ih =>
    intro b hn hb
    rw [collapseAux_cons]
    by_cases hw : isWsJS c = true
    · have hc : c = ' ' := hn.1 c (by simp) hw
      cases b with
      | true => exact absurd hw (by simp [hb rfl c rfl])
      | false =>
        rw [if_pos hw, if_neg (by simp)]
        rw [hc]
        congr 1
        refine ih true (wsNorm_tail c cs hn) ?_
        intro _ y hy
        have hch := (List.chain'_cons'.mp hn.2).1 y (Option.mem_def.mpr hy)
        cases hwy : isWsJS y with
        | false => rfl
        | true => exact absurd ⟨hw, hwy⟩ hch
    · rw [if_neg hw]
      congr 1
      exact ih false (wsNorm_tail c cs hn) (fun hf => by simp at hf)

theorem collapseAux_mem : ∀ (s : List Char) (b : Bool),
    ∀ a ∈ collapseAux b s, a ∈ s ∨ a = ' ' := by
  intro s
  induction s with
  | nil => intro b a ha; rw [collapseAux_nil] at ha; simp at ha
  | cons c cs ih =>
    intro b a ha
    rw [collapseAux_cons] at ha
    by_cases hw : isWsJS c = true
    · rw [if_pos hw] at ha
      cases b with
      | true =>
        rcases ih true a ha with hm | hsp
        · exact Or.inl (List.mem_cons_of_mem c hm)
        · exact Or.inr hsp
      | false =>
        rcases List.mem_cons.mp ha with rfl | ha'
        · exact Or.inr rfl
        · rcases ih true a ha' with hm | hsp
          · exact Or.inl (List.mem_cons_of_mem c hm)
          · exact Or.inr hsp
    · rw [if_neg hw] at ha
      rcases List.mem_cons.mp ha with rfl | ha'
      · exact Or.inl (by simp)
      · rcases ih false a ha' with hm | hsp
        · exact Or.inl (List.mem_cons_of_mem c hm)
        · exact Or.inr hsp

/-- The collapse pass preserves tag-freeness. -/
theorem collapseAux_tagfree : ∀ (s : List Char) (b : Bool),
    containsTag s = false → containsTag (collapseAux b s) = false := by
  intro s
  induction s with
  | nil => intro b _; rw [collapseAux_nil]; rfl
  | cons c cs ih =>
    intro b h
    simp only [containsTag, Bool.or_eq_false_iff] at h
    rw [collapseAux_cons]
    by_cases hw : isWsJS c = true
    · rw [if_pos hw]
      cases b with
      | true => exact ih true h.2
      | false =>
        simp only [containsTag, Bool.or_eq_false_iff]
        exact ⟨by simp, ih true h.2⟩
    · rw [if_neg hw]
      simp only [containsTag, Bool.or_eq_false_iff]
      constructor
      · by_cases hc : c = '<'
        · rw [if_pos hc]
          have hnone : findTagEnd cs = none := by
            have := h.1
            rw [if_pos hc] at this
            exact Option.not_isSome_iff_eq_none.mp (by simp [this])
          rcases findTagEnd_none_elim cs hnone with rfl | ⟨ds, rfl⟩ | ⟨d, ds, rfl, hd, hgt⟩
          · rw [collapseAux_nil, hnone]; rfl
          · rw [collapseAux_cons, if_neg (by simp [isWsJS])]
            simp [findTagEnd]
          · have hfree : ∀ a ∈ collapseAux false (d :: ds), a ≠ '>' := by
              intro a ha he
              subst he
              rcases collapseAux_mem (d :: ds) false '>' ha with hm | hsp
              · rcases List.mem_cons.mp hm with he' | hm'
                · exact hd he'.symm
                · exact hgt hm'
              · exact absurd hsp (by decide)
            rw [findTagEnd_none_of_gtfree _ hfree]
            rfl
        · rw [if_neg hc]
      · exact ih false h.2

/-- A whitespace-free pattern at the head of the collapse pass's output was
already at the head of the input. -/
theorem collapseAux_take_back : ∀ (s : List Char) (pat : List Char),
    (∀ p ∈ pat, isWsJS p = false) →
    (collapseAux false s).take pat.length = pat →
    s.take pat.length = pat := by
  intro s
  induction s with
  | nil =>
    intro pat _ h
    rwa [collapseAux_nil] at h
  | cons c cs ih =>
    intro pat hws h
    rw [collapseAux_cons] at h
    by_cases hw : isWsJS c = true
    · rw [if_pos hw, if_neg (by simp)] at h
      cases pat with
      | nil => rfl
      | cons p pat' =>
        rw [List.length_cons, List.take_succ_cons] at h
        have hp : p = ' ' := by
          have := congrArg (fun l => l.head?) h.symm
          simpa using this
        subst hp
        exact absurd (hws ' ' (List.mem_cons_self _ _)) (by decide)
    · rw [if_neg hw] at h
      cases pat with
      | nil => rfl
      | cons p pat' =>
        rw [List.length_cons, List.take_succ_cons] at h
        have hh : c = p ∧ (collapseAux false cs).take pat'.length = pat' := by
          constructor
          · have := congrArg (fun l => l.head?) h
            simpa using this
          · have := congrArg (fun l => l.tail) h
            simpa using this
        rw [List.length_cons, List.take_succ_cons, hh.1]
        rw [ih pat' (fun q hq => hws q (List.mem_cons_of_mem p hq)) hh.2]

/-- The collapse pass preserves `&nbsp;`-freeness. -/
theorem collapseAux_nbspfree : ∀ (s : List Char) (b : Bool),
    hasNbsp s = false → hasNbsp (collapseAux b s) = false := by
  intro s
  induction s with
  | nil => intro b _; rw [collapseAux_nil]; rfl
  | cons c cs ih =>
    intro b h
    simp only [hasNbsp, Bool.or_eq_false_iff] at h
    rw [collapseAux_cons]
    by_cases hw : isWsJS c = true
    · rw [if_pos hw]
      cases b with
      | true => exact ih true h.2
      | false =>
        simp only [hasNbsp, Bool.or_eq_false_iff]
        refine ⟨?_, ih true h.2⟩
        cases hs : startsNbsp (' ' :: collapseAux true cs) with
        | false => rfl
        | true =>
          exfalso
          exact absurd ((startsNbsp_cons _ _).mp hs).1 (by decide)
    · rw [if_neg hw]
      simp only [hasNbsp, Bool.or_eq_false_iff]
      refine ⟨?_, ih false h.2⟩
      cases hs : startsNbsp (c :: collapseAux false cs) with
      | false => rfl
      | true =>
        exfalso
        have hh := (startsNbsp_cons _ _).mp hs
        have := collapseAux_take_back cs ['n', 'b', 's', 'p', ';'] (by decide) hh.2
        rw [(startsNbsp_cons c cs).mpr ⟨hh.1, this⟩] at h
        exact absurd h.1 (by simp)

theorem head?_dropWhile_false {p : Char → Bool} : ∀ (l : List Char) (c : Char),
    (l.dropWhile p).head? = some c → p c = false := by
  intro l
  induction l with
  | nil => intro c h; simp at h
  | cons d ds ih =>
    intro c h
    rw [List.dropWhile_cons] at h
    split at h
    · exact ih c h
    · rename_i hd
      simp only [List.head?_cons, Option.some.injEq] at h
      subst h
      simpa using hd

theorem containsTag_dropWhile (p : Char → Bool) : ∀ (s : List Char),
    containsTag s = false → containsTag (s.dropWhile p) = false := by
  intro s
  induction s with
  | nil => intro h; exact h
  | cons c cs ih =>
    intro h
    rw [List.dropWhile_cons]
    split
    · exact ih (containsTag_tail c cs h)
    · exact h

theorem hasNbsp_tail (c : Char) (cs : List Char) (h : hasNbsp (c :: cs) = false) :
    hasNbsp cs = false := by
  simp only [hasNbsp, Bool.or_eq_false_iff] at h
  exact h.2

theorem hasNbsp_dropWhile (p : Char → Bool) : ∀ (s : List Char),
    hasNbsp s = false → hasNbsp (s.dropWhile p) = false := by
  intro s
  induction s with
  | nil => intro h; exact h
  | cons c cs ih =>
    intro h
    rw [List.dropWhile_cons]
    split
    · exact ih (hasNbsp_tail c cs h)
    · exact h

theorem afterGt_cons (c : Char) (cs : List Char) :
    afterGt (c :: cs) = if c = '>' then some cs else afterGt cs := rfl

theorem findTagEnd_cons (c : Char) (cs : List Char) :
    findTagEnd (c :: cs) = if c = '>' then none else afterGt cs := rfl

theorem afterGt_append_some : ∀ (x r y : List Char),
    afterGt x = some r → afterGt (x ++ y) = some (r ++ y) := by
  intro x
  induction x with
  | nil => intro r y h; simp [afterGt] at h
  | cons c cs ih =>
    intro r y h
    rw [afterGt_cons] at h
    rw [List.cons_append, afterGt_cons]
    by_cases hc : c = '>'
    · rw [if_pos hc] at h ⊢
      injection h with h
      rw [h]
    · rw [if_neg hc] at h ⊢
      exact ih r y h

theorem findTagEnd_append_isSome (x y : List Char)
    (h : (findTagEnd x).isSome = true) : (findTagEnd (x ++ y)).isSome = true := by
  cases x with
  | nil => simp [findTagEnd] at h
  | cons c cs =>
    rw [findTagEnd_cons] at h
    rw [List.cons_append, findTagEnd_cons]
    by_cases hc : c = '>'
    · rw [if_pos hc] at h; simp at h
    · rw [if_neg hc] at h ⊢
      rcases Option.isSome_iff_exists.mp h with ⟨r, hr⟩
      rw [afterGt_append_some cs r y hr]
      rfl

theorem containsTag_append_left : ∀ (x y : List Char),
    containsTag x = true → containsTag (x ++ y) = true := by
  intro x
  induction x with
  | nil => intro y h; simp [containsTag] at h
  | cons c cs ih =>
    intro y h
    rw [List.cons_append]
    simp only [containsTag, Bool.or_eq_true] at h ⊢
    rcases h with hh | hh
    · left
      by_cases hc : c = '<'
      · rw [if_pos hc] at hh ⊢
        exact findTagEnd_append_isSome cs y hh
      · rw [if_neg hc] at hh
        exact absurd hh (by simp)
    · right
      exact ih y hh

theorem containsTag_append_false_left (x y : List Char)
    (h : containsTag (x ++ y) = false) : containsTag x = false := by
  cases hx : containsTag x with
  | false => rfl
  | true =>
    rw [containsTag_append_left x y hx] at h
    exact absurd h (by simp)

theorem startsNbsp_append (x y : List Char) (h : startsNbsp x = true) :
    startsNbsp (x ++ y) = true := by
  simp only [startsNbsp, decide_eq_true_eq] at h ⊢
  have hlen : 6 ≤ x.length := by
    have := congrArg List.length h
    simp [List.length_take] at this
    omega
  rw [List.take_append_of_le_length hlen, h]

theorem hasNbsp_append_left : ∀ (x y : List Char),
    hasNbsp x = true → hasNbsp (x ++ y) = true := by
  intro x
  induction x with
  | nil => intro y h; simp [hasNbsp] at h
  | cons c cs ih =>
    intro y h
    rw [List.cons_append]
    simp only [hasNbsp, Bool.or_eq_true] at h ⊢
    rcases h with hh | hh
    · left
      have := startsNbsp_append (c :: cs) y hh
      rwa [List.cons_append] at this
    · right
      exact ih y hh

theorem hasNbsp_append_false_left (x y : List Char)
    (h : hasNbsp (x ++ y) = false) : hasNbsp x = false := by
  cases hx : hasNbsp x with
  | false => rfl
  | true =>
    rw [hasNbsp_append_left x y hx] at h
    exact absurd h (by simp)

theorem wsNorm_append_left (x y : List Char) (h : wsNorm (x ++ y)) : wsNorm x :=
  ⟨fun c hc hw => h.1 c (List.mem_append_left y hc) hw,
   (List.chain'_append.mp h.2).1⟩

theorem wsNorm_append_right (x y : List Char) (h : wsNorm (x ++ y)) : wsNorm y :=
  ⟨fun c hc hw => h.1 c (List.mem_append_right x hc) hw,
   (List.chain'_append.mp h.2).2.1⟩

/-- The trimmed string is the leading part of the left-trimmed string. -/
theorem jsTrim_decomp (s : List Char) :
    s.dropWhile (isWsJS ·) =
    jsTrim s ++ ((s.dropWhile (isWsJS ·)).reverse.takeWhile (isWsJS ·)).reverse := by
  have h := List.takeWhile_append_dropWhile (isWsJS ·) (s.dropWhile (isWsJS ·)).reverse
  have h2 := congrArg List.reverse h
  rw [List.reverse_append, List.reverse_reverse] at h2
  unfold jsTrim
  exact h2.symm

theorem jsTrim_wsNorm (s : List Char) (hn : wsNorm s) : wsNorm (jsTrim s) := by
  have hA : wsNorm (s.dropWhile (isWsJS ·)) := by
    have h := List.takeWhile_append_dropWhile (isWsJS ·) s
    have hn' : wsNorm (s.takeWhile (isWsJS ·) ++ s.dropWhile (isWsJS ·)) := by
      rw [h]; exact hn
    exact wsNorm_append_right _ _ hn'
  exact wsNorm_append_left (jsTrim s)
    ((s.dropWhile (isWsJS ·)).reverse.takeWhile (isWsJS ·)).reverse
    (by rw [← jsTrim_decomp s]; exact hA)

theorem jsTrim_tagfree (s : List Char) (h : containsTag s = false) :
    containsTag (jsTrim s) = false := by
  exact containsTag_append_false_left (jsTrim s)
    ((s.dropWhile (isWsJS ·)).reverse.takeWhile (isWsJS ·)).reverse
    (by rw [← jsTrim_decomp s]; exact containsTag_dropWhile (isWsJS ·) s h)

theorem jsTrim_nbspfree (s : List Char) (h : hasNbsp s = false) :
    hasNbsp (jsTrim s) = false := by
  exact hasNbsp_append_false_left (jsTrim s)
    ((s.dropWhile (isWsJS ·)).reverse.takeWhile (isWsJS ·)).reverse
    (by rw [← jsTrim_decomp s]; exact hasNbsp_dropWhile (isWsJS ·) s h)

theorem jsTrim_head (s : List Char) :
    ∀ c, (jsTrim s).head? = some c → isWsJS c = false := by
  intro c hc
  have hA : (s.dropWhile (isWsJS ·)).head? = some c := by
    rw [jsTrim_decomp s]
    cases hj : jsTrim s with
    | nil => rw [hj] at hc; simp at hc
    | cons d ds =>
      rw [hj] at hc
      simp only [List.head?_cons, Option.some.injEq] at hc
      subst hc
      rw [List.cons_append]
      rfl
  simpa using head?_dropWhile_false s c hA

theorem jsTrim_last (s : List Char) :
    ∀ c, (jsTrim s).getLast? = some c → isWsJS c = false := by
  intro c hc
  unfold jsTrim at hc
  rw [List.getLast?_reverse] at hc
  simpa using head?_dropWhile_false _ c hc

/-- The output of `htmlToText` is whitespace-normal, tag-free, `&nbsp;`-free
and has no leading or trailing whitespace. -/
theorem htmlToText_out_props (html : List Char) :
    wsNorm (htmlToText html) ∧ containsTag (htmlToText html) = false ∧
    hasNbsp (htmlToText html) = false ∧
    (∀ c, (htmlToText html).head? = some c → isWsJS c = false) ∧
    (∀ c, (htmlToText html).getLast? = some c → isWsJS c = false) := by
  unfold htmlToText
  generalize stripBlocks styleOpen styleClose
    (stripBlocks scriptOpen scriptClose html) = B
  have hT : containsTag (stripTags B) = false :=
    stripTagsGo_kills B.length B (le_refl _) B.length (le_refl _)
  have hNt : containsTag (stripNbsp (stripTags B)) = false :=
    stripNbspGo_tagfree (stripTags B).length (stripTags B) (le_refl _)
      (stripTags B).length hT
  have hNb : hasNbsp (stripNbsp (stripTags B)) = false :=
    stripNbspGo_kills (stripTags B).length (stripTags B) (le_refl _)
      (stripTags B).length (le_refl _)
  have hQt : containsTag (collapseWs (stripNbsp (stripTags B))) = false :=
    collapseAux_tagfree _ false hNt
  have hQb : hasNbsp (collapseWs (stripNbsp (stripTags B))) = false :=
    collapseAux_nbspfree _ false hNb
  have hQn : wsNorm (collapseWs (stripNbsp (stripTags B))) :=
    collapseAux_wsNorm _ false
  exact ⟨jsTrim_wsNorm _ hQn, jsTrim_tagfree _ hQt, jsTrim_nbspfree _ hQb,
    jsTrim_head _, jsTrim_last _⟩

/-- C9: `htmlToText` is idempotent — applying the cron job's HTML-to-text
conversion (cron.js 7–15) to its own output returns that output unchanged,
since the output contains no `<script>`/`<style>` blocks, no tags, no
`&nbsp;` entities, no collapsible whitespace and no leading or trailing
whitespace. -/
theorem C9_htmlToText_idempotent (html : List Char) :
    htmlToText (htmlToText html) = htmlToText html := by
  obtain ⟨hn, ht, hb, hh, hl⟩ := htmlToText_out_props html
  set P := htmlToText html with hP
  show jsTrim (collapseWs (stripNbsp (stripTags
    (stripBlocks styleOpen styleClose
      (stripBlocks scriptOpen scriptClose P))))) = P
  rw [stripBlocks_id_noclose scriptOpen scriptClose P
    (occursCI_scriptClose_false_of_tagfree P ht)]
  rw [stripBlocks_id_noclose styleOpen styleClose P
    (occursCI_styleClose_false_of_tagfree P ht)]
  rw [show stripTags P = P from stripTagsGo_id P P.length (le_refl _) ht]
  rw [show stripNbsp P = P from stripNbspGo_id P P.length (le_refl _) hb]
  rw [show collapseWs P = P from
    collapseAux_id P false hn (fun hf => by simp at hf)]
  exact jsTrim_eq_self P hh hl

/-! ## C1: the canonical normalized-text family

The claim's texts — each garage name once, followed in its segment by a
trailing `NN%` or `Full` token — are modelled by the family `mkText`: each of
the four names, a space, its token, a space.  The token is either the literal
`Full` or an arbitrary nonempty digit string followed by `%`. -/

inductive GarageToken where
  | full : GarageToken
  | pct : List Char → GarageToken

def tokChars : GarageToken → List Char
  | GarageToken.full => ['F', 'u', 'l', 'l']
  | GarageToken.pct ds => ds ++ ['%']

def tokWF : GarageToken → Prop
  | GarageToken.full => True
  | GarageToken.pct ds => ds ≠ [] ∧ ∀ c ∈ ds, isDigitChar c = true

/-- The value the claim assigns to a token: `NN` for `NN%`, 100 for `Full`. -/
def tokVal : GarageToken → Int
  | GarageToken.full => 100
  | GarageToken.pct ds => ((digitsToNat ds : Nat) : Int)

def mkText (t1 t2 t3 t4 : GarageToken) : List Char :=
  "South Garage".data ++ ' ' :: (tokChars t1 ++ ' ' ::
  ("North Garage".data ++ ' ' :: (tokChars t2 ++ ' ' ::
  ("West Garage".data ++ ' ' :: (tokChars t3 ++ ' ' ::
  ("South Campus Garage".data ++ ' ' :: tokChars t4))))))

def garageSeg1 (t : GarageToken) : List Char :=
  "South Garage".data ++ ' ' :: (tokChars t ++ [' '])

def garageSeg2 (t : GarageToken) : List Char :=
  "North Garage".data ++ ' ' :: (tokChars t ++ [' '])

def garageSeg3 (t : GarageToken) : List Char :=
  "West Garage".data ++ ' ' :: (tokChars t ++ [' '])

def garageSeg4 (t : GarageToken) : List Char :=
  "South Campus Garage".data ++ ' ' :: tokChars t

theorem mkText_decomp (t1 t2 t3 t4 : GarageToken) :
    mkText t1 t2 t3 t4 =
    garageSeg1 t1 ++ (garageSeg2 t2 ++ (garageSeg3 t3 ++ garageSeg4 t4)) := by
  simp [mkText, garageSeg1, garageSeg2, garageSeg3, garageSeg4]

/-- A case-insensitive prefix test that already fails inside the first block
of an append fails on the whole append. -/
theorem isPrefixCI_stub_false : ∀ (a pat b : List Char),
    isPrefixCI (pat.take a.length) a = false → isPrefixCI pat (a ++ b) = false := by
  intro a
  induction a with
  | nil => intro pat b h; simp [isPrefixCI] at h
  | cons c a' ih =>
    intro pat b h
    cases pat with
    | nil => simp [isPrefixCI] at h
    | cons p ps =>
      rw [List.length_cons, List.take_succ_cons] at h
      simp only [isPrefixCI, Bool.and_eq_false_iff] at h
      rw [List.cons_append]
      simp only [isPrefixCI, Bool.and_eq_false_iff]
      rcases h with h | h
      · exact Or.inl h
      · exact Or.inr (ih ps b h)

/-- `NoStartIn` for a fixed block, from a decidable family of prefix
failures that do not look beyond the block. -/
theorem noStartIn_of_stubs (pat a : List Char)
    (h : ∀ i, i < a.length →
      isPrefixCI (pat.take (a.drop i).length) (a.drop i) = false)
    (b : List Char) : NoStartIn pat a b :=
  fun i hi => isPrefixCI_stub_false (a.drop i) pat b (h i hi)

theorem lowEq_comm (a b : Char) : lowEq a b = lowEq b a := by
  simp [lowEq, eq_comm]

/-- `NoStartIn` for a block none of whose characters can begin the pattern. -/
theorem noStartIn_headclass (p0 : Char) (pat : List Char) : ∀ (a b : List Char),
    (∀ c ∈ a, lowEq c p0 = false) → NoStartIn (p0 :: pat) a b := by
  intro a
  induction a with
  | nil => intro b _ i hi; simp at hi
  | cons c a' ih =>
    intro b h i hi
    cases i with
    | zero =>
      simp only [List.drop_zero, List.cons_append]
      refine isPrefixCI_head_false p0 c pat (a' ++ b) ?_
      rw [lowEq_comm]
      exact h c (by simp)
    | succ j =>
      have hd : (c :: a').drop (j + 1) = a'.drop j := rfl
      rw [hd]
      exact ih b (fun x hx => h x (List.mem_cons_of_mem c hx)) j
        (by simp at hi; omega)

theorem noStartIn_tail (pat : List Char) (c : Char) (a b : List Char)
    (h : NoStartIn pat (c :: a) b) : NoStartIn pat a b := by
  intro i hi
  have := h (i + 1) (by simp; omega)
  simpa using this

theorem isPrefixCI_self_append (pat r : List Char) :
    isPrefixCI pat (pat ++ r) = true := by
  rw [← matchCI_isSome_iff, matchCI_self_append]
  rfl

/-- The first case-insensitive occurrence of `pat` in `a ++ b`, when it
starts nowhere inside `a` and starts `b`. -/
theorem indexOfCI_append_first : ∀ (a pat b : List Char),
    NoStartIn pat a b → isPrefixCI pat b = true →
    indexOfCI pat (a ++ b) = some a.length := by
  intro a
  induction a with
  | nil =>
    intro pat b _ hyes
    rw [List.nil_append]
    cases b with
    | nil => simp [indexOfCI, hyes]
    | cons c cs => simp [indexOfCI, hyes]
  | cons c a' ih =>
    intro pat b hno hyes
    have h0 := hno 0 (by simp)
    simp only [List.drop_zero] at h0
    rw [List.cons_append] at h0 ⊢
    simp only [indexOfCI, h0, Bool.false_eq_true, if_false]
    rw [ih pat b (noStartIn_tail pat c a' b hno) hyes]
    simp

theorem lowEq_digit_false (c p : Char) (hc : isDigitChar c = true)
    (hp : 97 ≤ (asciiLower p).toNat) : lowEq c p = false := by
  have h1 := asciiLower_digit c hc
  have hd := digit_range c hc
  simp only [lowEq, h1, decide_eq_false_iff_not]
  intro he
  have := congrArg Char.toNat he
  omega

theorem tokChars_lowEq_false (t : GarageToken) (hw : tokWF t) (p : Char)
    (hp : 97 ≤ (asciiLower p).toNat)
    (hpct : lowEq '%' p = false) (hF : lowEq 'F' p = false)
    (hu : lowEq 'u' p = false) (hl : lowEq 'l' p = false) :
    ∀ c ∈ tokChars t, lowEq c p = false := by
  intro c hc
  cases t with
  | full =>
    simp only [tokChars] at hc
    simp at hc
    rcases hc with rfl | rfl | rfl
    · exact hF
    · exact hu
    · exact hl
  | pct ds =>
    simp only [tokChars] at hc
    rcases List.mem_append.mp hc with hd | hd
    · exact lowEq_digit_false c p (hw.2 c hd) hp
    · simp at hd
      subst hd
      exact hpct

theorem tokChars_ne_nil (t : GarageToken) : tokChars t ≠ [] := by
  cases t with
  | full => simp [tokChars]
  | pct ds => simp [tokChars]

theorem tokChars_nonws (t : GarageToken) (hw : tokWF t) :
    ∀ c ∈ tokChars t, isWsJS c = false := by
  intro c hc
  cases t with
  | full =>
    simp only [tokChars] at hc
    simp at hc
    rcases hc with rfl | rfl | rfl <;> decide
  | pct ds =>
    simp only [tokChars] at hc
    rcases List.mem_append.mp hc with hd | hd
    · exact digit_not_ws c (hw.2 c hd)
    · simp at hd; subst hd; decide

theorem matchFullCI_full (rest : List Char) :
    matchFullCI (['F', 'u', 'l', 'l'] ++ rest) = some ['F', 'u', 'l', 'l'] := by
  show matchFullCI ('F' :: 'u' :: 'l' :: 'l' :: rest) = some ['F', 'u', 'l', 'l']
  have hpre : isPrefixCI ['f', 'u', 'l', 'l']
      ('F' :: 'u' :: 'l' :: 'l' :: rest) = true := by
    simp only [isPrefixCI]
    decide
  unfold matchFullCI
  rw [if_pos hpre]
  rfl

theorem matchPct_digits (ds rest : List Char) (hne : ds ≠ [])
    (hd : ∀ c ∈ ds, isDigitChar c = true) :
    matchPct (ds ++ '%' :: rest) = some (ds ++ ['%']) := by
  have hstop : (ds ++ '%' :: rest).takeWhile (isDigitChar ·) = ds ∧
      (ds ++ '%' :: rest).dropWhile (isDigitChar ·) = '%' :: rest :=
    takeWhile_append_stop hd (fun c hc => by
      rw [List.head?_cons, Option.some_inj] at hc
      rw [← hc]
      decide)
  have hw1 : ('%' :: rest).dropWhile (isWsJS ·) = '%' :: rest := by
    simp [List.dropWhile_cons, show isWsJS '%' = false from by decide]
  have hw2 : ('%' :: rest).takeWhile (isWsJS ·) = [] := by
    simp [List.takeWhile_cons, show isWsJS '%' = false from by decide]
  unfold matchPct
  rw [hstop.1, hstop.2, if_neg hne, hw1, hw2]
  simp

theorem matchFullCI_digits (ds rest : List Char) (hne : ds ≠ [])
    (hd : ∀ c ∈ ds, isDigitChar c = true) :
    matchFullCI (ds ++ rest) = none := by
  cases ds with
  | nil => exact absurd rfl hne
  | cons d ds2 =>
    unfold matchFullCI
    rw [List.cons_append]
    have hlow : lowEq d 'f' = false :=
      lowEq_digit_false d 'f' (hd d (by simp)) (by decide)
    rw [lowEq_comm] at hlow
    rw [if_neg (by
      simp [isPrefixCI_head_false 'f' d ['u', 'l', 'l'] (ds2 ++ rest) hlow])]

theorem matchAlt_tok (t : GarageToken) (hw : tokWF t) (tail : List Char) :
    matchAlt (tokChars t ++ tail) = some (tokChars t) := by
  cases t with
  | full =>
    unfold matchAlt
    rw [show tokChars GarageToken.full = ['F', 'u', 'l', 'l'] from rfl,
      matchFullCI_full tail]
    rfl
  | pct ds =>
    have hassoc : tokChars (GarageToken.pct ds) ++ tail = ds ++ '%' :: tail := by
      simp [tokChars]
    unfold matchAlt
    rw [hassoc, matchFullCI_digits ds ('%' :: tail) hw.1 hw.2,
      matchPct_digits ds tail hw.1 hw.2]
    rfl

theorem matchWsAlt_sp_tok (t : GarageToken) (hw : tokWF t) (tail : List Char) :
    matchWsAlt (' ' :: (tokChars t ++ tail)) = some (tokChars t) := by
  have hsp : isWsJS ' ' = true := by decide
  have hcond : (' ' :: (tokChars t ++ tail)).takeWhile (isWsJS ·) ≠ [] := by
    simp [List.takeWhile_cons, hsp]
  have hdrop : (tokChars t ++ tail).dropWhile (isWsJS ·) = tokChars t ++ tail := by
    cases htc : tokChars t with
    | nil => exact absurd htc (tokChars_ne_nil t)
    | cons h0 tl =>
      have hnw : isWsJS h0 = false := tokChars_nonws t hw h0 (by rw [htc]; simp)
      rw [List.cons_append]
      simp [List.dropWhile_cons, hnw]
  unfold matchWsAlt
  rw [if_neg hcond]
  rw [show (' ' :: (tokChars t ++ tail)).dropWhile (isWsJS ·) =
      tokChars t ++ tail from by simp [List.dropWhile_cons, hsp, hdrop]]
  exact matchAlt_tok t hw tail

theorem matchGroupPresent_sp (s : List Char) :
    matchGroupPresent (' ' :: s) = none := by
  have hd : isDigitChar ' ' = false := by decide
  have h1 : (' ' :: s).takeWhile (isDigitChar ·) = [] := by
    simp [List.takeWhile_cons, hd]
  unfold matchGroupPresent
  rw [h1, if_pos rfl]

theorem lazyGroupAlt_sp_tok (t : GarageToken) (hw : tokWF t) (tail : List Char) :
    lazyGroupAlt (' ' :: (tokChars t ++ tail)) = some (tokChars t) := by
  rw [lazyGroupAlt_cons]
  have hgt : matchGroupThen (' ' :: (tokChars t ++ tail)) = some (tokChars t) := by
    unfold matchGroupThen
    rw [matchGroupPresent_sp, matchWsAlt_sp_tok t hw tail]
    rfl
  rw [hgt]

theorem searchPattern_at_name (name : List Char) (hname : name ≠ [])
    (t : GarageToken) (hw : tokWF t) (tail : List Char) :
    searchPattern name (name ++ ' ' :: (tokChars t ++ tail)) = some (tokChars t) := by
  have hmp : matchPatternAt name (name ++ ' ' :: (tokChars t ++ tail)) =
      some (tokChars t) := by
    unfold matchPatternAt
    rw [matchCI_self_append]
    exact lazyGroupAlt_sp_tok t hw tail
  cases name with
  | nil => exact absurd rfl hname
  | cons c ncs =>
    rw [List.cons_append] at hmp ⊢
    rw [searchPattern_cons, hmp]

theorem jsTrim_tokChars (t : GarageToken) (hw : tokWF t) :
    jsTrim (tokChars t) = tokChars t := by
  apply jsTrim_eq_self
  · intro c hc
    exact tokChars_nonws t hw c (head?_mem_of_ne hc)
  · intro c hc
    exact tokChars_nonws t hw c (getLast?_mem_of_ne hc)

theorem pct_cap_not_full (ds : List Char) :
    ¬((tokChars (GarageToken.pct ds)).map asciiLower = ['f', 'u', 'l', 'l']) := by
  intro h
  rw [show tokChars (GarageToken.pct ds) = ds ++ ['%'] from rfl] at h
  have hg := congrArg List.getLast? h
  rw [List.map_append] at hg
  simp only [List.map_cons, List.map_nil] at hg
  rw [List.getLast?_concat] at hg
  exact absurd hg (by decide)

theorem pct_value (ds : List Char) (hne : ds ≠ [])
    (hd : ∀ c ∈ ds, isDigitChar c = true) :
    parseIntJS (jsTrim (replaceFirstPct (ds ++ ['%']))) =
      some ((digitsToNat ds : Nat) : Int) := by
  have hrep : replaceFirstPct (ds ++ ['%']) = ds := by
    have h := replaceFirstPct_append ds []
      (fun c hc he => absurd (digit_range c (hd c hc)) (by rw [he]; decide))
    simpa using h
  rw [hrep]
  have hjs : jsTrim ds = ds := by
    apply jsTrim_eq_self
    · intro c hc; exact digit_not_ws c (hd c (head?_mem_of_ne hc))
    · intro c hc; exact digit_not_ws c (hd c (getLast?_mem_of_ne hc))
  rw [hjs]
  exact parseIntJS_digits ds hne hd

theorem statusLoop_cons (text : List Char) (name : List Char) (idx : Nat)
    (rest : List (List Char × Nat)) (statuses : List (List Char × Int)) :
    statusLoop text ((name, idx) :: rest) statuses =
    (match searchPattern name ((text.drop idx).take
        ((match rest with | [] => text.length | (_, j) :: _ => j) - idx)) with
     | none => statusLoop text rest statuses
     | some cap =>
       if (jsTrim cap).map asciiLower = ['f', 'u', 'l', 'l'] then
         statusLoop text rest (setStatus statuses name 100)
       else
         match parseIntJS (jsTrim (replaceFirstPct (jsTrim cap))) with
         | some n => statusLoop text rest (setStatus statuses name n)
         | none => statusLoop text rest statuses) := rfl

theorem statusLoop_found (text name : List Char) (idx : Nat)
    (rest : List (List Char × Nat)) (statuses : List (List Char × Int))
    (cap : List Char)
    (h : searchPattern name ((text.drop idx).take
        ((match rest with | [] => text.length | (_, j) :: _ => j) - idx)) = some cap) :
    statusLoop text ((name, idx) :: rest) statuses =
    (if (jsTrim cap).map asciiLower = ['f', 'u', 'l', 'l'] then
       statusLoop text rest (setStatus statuses name 100)
     else
       match parseIntJS (jsTrim (replaceFirstPct (jsTrim cap))) with
       | some n => statusLoop text rest (setStatus statuses name n)
       | none => statusLoop text rest statuses) := by
  rw [statusLoop_cons, h]

/-- One iteration of the extractor's loop on a segment of the canonical
shape: the garage's token value is recorded. -/
theorem statusLoop_step (text : List Char) (name : List Char) (hname : name ≠ [])
    (idx : Nat) (rest : List (List Char × Nat)) (statuses : List (List Char × Int))
    (t : GarageToken) (hw : tokWF t) (tail : List Char)
    (hseg : (text.drop idx).take
        ((match rest with | [] => text.length | (_, j) :: _ => j) - idx) =
      name ++ ' ' :: (tokChars t ++ tail)) :
    statusLoop text ((name, idx) :: rest) statuses =
    statusLoop text rest (setStatus statuses name (tokVal t)) := by
  rw [statusLoop_found text name idx rest statuses (tokChars t)
    (by rw [hseg]; exact searchPattern_at_name name hname t hw tail)]
  rw [jsTrim_tokChars t hw]
  cases t with
  | full =>
    rw [if_pos (by decide)]
    rfl
  | pct ds =>
    rw [if_neg (pct_cap_not_full ds)]
    rw [show tokChars (GarageToken.pct ds) = ds ++ ['%'] from rfl]
    rw [pct_value ds hw.1 hw.2]
    rfl

theorem indexOfCI_of_prefix (pat s : List Char) (h : isPrefixCI pat s = true) :
    indexOfCI pat s = some 0 := by
  cases s with
  | nil => simp [indexOfCI, h]
  | cons c cs => simp [indexOfCI, h]

/-- A name-token-space segment in which a pattern starts nowhere. -/
theorem noStartIn_seg (pat nm : List Char) (t : GarageToken)
    (hnm : ∀ b, NoStartIn pat nm b)
    (hsp : ∀ b, NoStartIn pat [' '] b)
    (htok : ∀ b, NoStartIn pat (tokChars t) b) :
    ∀ b, NoStartIn pat (nm ++ ' ' :: (tokChars t ++ [' '])) b := by
  intro b
  have h2 : NoStartIn pat (tokChars t ++ [' ']) b :=
    noStartIn_append pat (tokChars t) [' '] b (htok _) (hsp _)
  have h1 : NoStartIn pat ([' '] ++ (tokChars t ++ [' '])) b :=
    noStartIn_append pat [' '] (tokChars t ++ [' ']) b (hsp _) h2
  exact noStartIn_append pat nm (' ' :: (tokChars t ++ [' '])) b (hnm _) h1

theorem noStartIn_tok (p0 : Char) (prest : List Char) (t : GarageToken)
    (hw : tokWF t) (hp : 97 ≤ (asciiLower p0).toNat)
    (hpct : lowEq '%' p0 = false) (hF : lowEq 'F' p0 = false)
    (hu : lowEq 'u' p0 = false) (hl : lowEq 'l' p0 = false) :
    ∀ b, NoStartIn (p0 :: prest) (tokChars t) b := by
  intro b
  exact noStartIn_headclass p0 prest (tokChars t) b
    (tokChars_lowEq_false t hw p0 hp hpct hF hu hl)

theorem noStartIn_tok_n2 (t : GarageToken) (hw : tokWF t) :
    ∀ b, NoStartIn "North Garage".data (tokChars t) b :=
  noStartIn_tok 'N' "orth Garage".data t hw (by decide) (by decide) (by decide)
    (by decide) (by decide)

theorem noStartIn_tok_n3 (t : GarageToken) (hw : tokWF t) :
    ∀ b, NoStartIn "West Garage".data (tokChars t) b :=
  noStartIn_tok 'W' "est Garage".data t hw (by decide) (by decide) (by decide)
    (by decide) (by decide)

theorem noStartIn_tok_n4 (t : GarageToken) (hw : tokWF t) :
    ∀ b, NoStartIn "South Campus Garage".data (tokChars t) b :=
  noStartIn_tok 'S' "outh Campus Garage".data t hw (by decide) (by decide)
    (by decide) (by decide) (by decide)

theorem noStartIn_seg1_n2 (t : GarageToken) (hw : tokWF t) :
    ∀ b, NoStartIn "North Garage".data (garageSeg1 t) b :=
  noStartIn_seg "North Garage".data "South Garage".data t
    (noStartIn_of_stubs _ _ (by decide))
    (noStartIn_of_stubs _ _ (by decide))
    (noStartIn_tok_n2 t hw)

theorem noStartIn_seg1_n3 (t : GarageToken) (hw : tokWF t) :
    ∀ b, NoStartIn "West Garage".data (garageSeg1 t) b :=
  noStartIn_seg "West Garage".data "South Garage".data t
    (noStartIn_of_stubs _ _ (by decide))
    (noStartIn_of_stubs _ _ (by decide))
    (noStartIn_tok_n3 t hw)

theorem noStartIn_seg2_n3 (t : GarageToken) (hw : tokWF t) :
    ∀ b, NoStartIn "West Garage".data (garageSeg2 t) b :=
  noStartIn_seg "West Garage".data "North Garage".data t
    (noStartIn_of_stubs _ _ (by decide))
    (noStartIn_of_stubs _ _ (by decide))
    (noStartIn_tok_n3 t hw)

theorem noStartIn_seg1_n4 (t : GarageToken) (hw : tokWF t) :
    ∀ b, NoStartIn "South Campus Garage".data (garageSeg1 t) b :=
  noStartIn_seg "South Campus Garage".data "South Garage".data t
    (noStartIn_of_stubs _ _ (by decide))
    (noStartIn_of_stubs _ _ (by decide))
    (noStartIn_tok_n4 t hw)

theorem noStartIn_seg2_n4 (t : GarageToken) (hw : tokWF t) :
    ∀ b, NoStartIn "South Campus Garage".data (garageSeg2 t) b :=
  noStartIn_seg "South Campus Garage".data "North Garage".data t
    (noStartIn_of_stubs _ _ (by decide))
    (noStartIn_of_stubs _ _ (by decide))
    (noStartIn_tok_n4 t hw)

theorem noStartIn_seg3_n4 (t : GarageToken) (hw : tokWF t) :
    ∀ b, NoStartIn "South Campus Garage".data (garageSeg3 t) b :=
  noStartIn_seg "South Campus Garage".data "West Garage".data t
    (noStartIn_of_stubs _ _ (by decide))
    (noStartIn_of_stubs _ _ (by decide))
    (noStartIn_tok_n4 t hw)

theorem indexOfCI_n1 (t1 t2 t3 t4 : GarageToken) :
    indexOfCI "South Garage".data (mkText t1 t2 t3 t4) = some 0 := by
  apply indexOfCI_of_prefix
  unfold mkText
  exact isPrefixCI_self_append _ _

theorem indexOfCI_n2 (t1 t2 t3 t4 : GarageToken) (h1 : tokWF t1) :
    indexOfCI "North Garage".data (mkText t1 t2 t3 t4) =
      some (garageSeg1 t1).length := by
  rw [mkText_decomp]
  apply indexOfCI_append_first
  · exact noStartIn_seg1_n2 t1 h1 _
  · rw [show garageSeg2 t2 ++ (garageSeg3 t3 ++ garageSeg4 t4) =
        "North Garage".data ++
          (' ' :: (tokChars t2 ++ [' ']) ++ (garageSeg3 t3 ++ garageSeg4 t4))
        from by simp [garageSeg2]]
    exact isPrefixCI_self_append _ _

theorem indexOfCI_n3 (t1 t2 t3 t4 : GarageToken) (h1 : tokWF t1)
    (h2 : tokWF t2) :
    indexOfCI "West Garage".data (mkText t1 t2 t3 t4) =
      some (garageSeg1 t1 ++ garageSeg2 t2).length := by
  rw [show mkText t1 t2 t3 t4 =
      (garageSeg1 t1 ++ garageSeg2 t2) ++ (garageSeg3 t3 ++ garageSeg4 t4)
      from by rw [mkText_decomp]; simp [List.append_assoc]]
  apply indexOfCI_append_first
  · exact noStartIn_append _ (garageSeg1 t1) (garageSeg2 t2) _
      (noStartIn_seg1_n3 t1 h1 _) (noStartIn_seg2_n3 t2 h2 _)
  · rw [show garageSeg3 t3 ++ garageSeg4 t4 =
        "West Garage".data ++ (' ' :: (tokChars t3 ++ [' ']) ++ garageSeg4 t4)
        from by simp [garageSeg3]]
    exact isPrefixCI_self_append _ _

theorem indexOfCI_n4 (t1 t2 t3 t4 : GarageToken) (h1 : tokWF t1)
    (h2 : tokWF t2) (h3 : tokWF t3) :
    indexOfCI "South Campus Garage".data (mkText t1 t2 t3 t4) =
      some (garageSeg1 t1 ++ garageSeg2 t2 ++ garageSeg3 t3).length := by
  rw [show mkText t1 t2 t3 t4 =
      (garageSeg1 t1 ++ garageSeg2 t2 ++ garageSeg3 t3) ++ garageSeg4 t4
      from by rw [mkText_decomp]; simp [List.append_assoc]]
  apply indexOfCI_append_first
  · exact noStartIn_append _ (garageSeg1 t1 ++ garageSeg2 t2) (garageSeg3 t3) _
      (noStartIn_append _ (garageSeg1 t1) (garageSeg2 t2) _
        (noStartIn_seg1_n4 t1 h1 _) (noStartIn_seg2_n4 t2 h2 _))
      (noStartIn_seg3_n4 t3 h3 _)
  · rw [show garageSeg4 t4 =
        "South Campus Garage".data ++ (' ' :: tokChars t4) from by
        simp [garageSeg4]]
    exact isPrefixCI_self_append _ _

/-- C1: on every canonical normalized text in which each known garage name
occurs exactly once, followed within its segment by a trailing `NN%` or
`Full` token, `parseStatuses` (cron.js 22–57) returns exactly one entry per
garage name, in page order, with value `NN` for an `NN%` token and 100 for a
`Full` token. -/
theorem C1_extracts_all (t1 t2 t3 t4 : GarageToken)
    (h1 : tokWF t1) (h2 : tokWF t2) (h3 : tokWF t3) (h4 : tokWF t4) :
    parseStatuses (mkText t1 t2 t3 t4) =
      [("South Garage".data, tokVal t1), ("North Garage".data, tokVal t2),
       ("West Garage".data, tokVal t3),
       ("South Campus Garage".data, tokVal t4)] := by
  have hP : parseStatuses (mkText t1 t2 t3 t4) =
      statusLoop (mkText t1 t2 t3 t4)
        (List.insertionSort (fun a b => a.2 ≤ b.2)
          (garageNames.filterMap
            (fun n => (indexOfCI n (mkText t1 t2 t3 t4)).map (fun i => (n, i)))))
        [] := rfl
  have hfm : garageNames.filterMap
      (fun n => (indexOfCI n (mkText t1 t2 t3 t4)).map (fun i => (n, i))) =
      [("South Garage".data, 0),
       ("North Garage".data, (garageSeg1 t1).length),
       ("West Garage".data, (garageSeg1 t1 ++ garageSeg2 t2).length),
       ("South Campus Garage".data,
         (garageSeg1 t1 ++ garageSeg2 t2 ++ garageSeg3 t3).length)] := by
    simp [garageNames, indexOfCI_n1 t1 t2 t3 t4, indexOfCI_n2 t1 t2 t3 t4 h1,
      indexOfCI_n3 t1 t2 t3 t4 h1 h2, indexOfCI_n4 t1 t2 t3 t4 h1 h2 h3]
  have hsorted : List.Sorted (fun (a b : List Char × Nat) => a.2 ≤ b.2)
      [("South Garage".data, 0),
       ("North Garage".data, (garageSeg1 t1).length),
       ("West Garage".data, (garageSeg1 t1 ++ garageSeg2 t2).length),
       ("South Campus Garage".data,
         (garageSeg1 t1 ++ garageSeg2 t2 ++ garageSeg3 t3).length)] := by
    simp [List.sorted_cons, List.length_append]
  have hseg1 : ((mkText t1 t2 t3 t4).drop 0).take ((garageSeg1 t1).length - 0) =
      "South Garage".data ++ ' ' :: (tokChars t1 ++ [' ']) := by
    rw [List.drop_zero, Nat.sub_zero, mkText_decomp, List.take_left]
    rfl
  have hseg2 : ((mkText t1 t2 t3 t4).drop (garageSeg1 t1).length).take
      ((garageSeg1 t1 ++ garageSeg2 t2).length - (garageSeg1 t1).length) =
      "North Garage".data ++ ' ' :: (tokChars t2 ++ [' ']) := by
    rw [mkText_decomp, List.drop_left, List.length_append,
      Nat.add_sub_cancel_left, List.take_left]
    rfl
  have hseg3 : ((mkText t1 t2 t3 t4).drop
        (garageSeg1 t1 ++ garageSeg2 t2).length).take
      ((garageSeg1 t1 ++ garageSeg2 t2 ++ garageSeg3 t3).length -
        (garageSeg1 t1 ++ garageSeg2 t2).length) =
      "West Garage".data ++ ' ' :: (tokChars t3 ++ [' ']) := by
    rw [show mkText t1 t2 t3 t4 =
        (garageSeg1 t1 ++ garageSeg2 t2) ++ (garageSeg3 t3 ++ garageSeg4 t4)
        from by rw [mkText_decomp]; simp [List.append_assoc]]
    rw [List.drop_left]
    rw [show (garageSeg1 t1 ++ garageSeg2 t2 ++ garageSeg3 t3).length =
        (garageSeg1 t1 ++ garageSeg2 t2).length + (garageSeg3 t3).length
        from by rw [List.length_append]]
    rw [Nat.add_sub_cancel_left, List.take_left]
    rfl
  have hseg4 : ((mkText t1 t2 t3 t4).drop
        (garageSeg1 t1 ++ garageSeg2 t2 ++ garageSeg3 t3).length).take
      ((mkText t1 t2 t3 t4).length -
        (garageSeg1 t1 ++ garageSeg2 t2 ++ garageSeg3 t3).length) =
      "South Campus Garage".data ++ ' ' :: (tokChars t4 ++ []) := by
    rw [show mkText t1 t2 t3 t4 =
        (garageSeg1 t1 ++ garageSeg2 t2 ++ garageSeg3 t3) ++ garageSeg4 t4
        from by rw [mkText_decomp]; simp [List.append_assoc]]
    rw [List.drop_left, List.length_append, Nat.add_sub_cancel_left,
      List.take_length]
    simp [garageSeg4]
  rw [hP, hfm, List.Sorted.insertionSort_eq hsorted]
  rw [statusLoop_step _ _ (by decide) _ _ _ t1 h1 [' '] hseg1]
  rw [statusLoop_step _ _ (by decide) _ _ _ t2 h2 [' '] hseg2]
  rw [statusLoop_step _ _ (by decide) _ _ _ t3 h3 [' '] hseg3]
  rw [statusLoop_step _ _ (by decide) _ _ _ t4 h4 [] hseg4]
  have hnil : ∀ s, statusLoop (mkText t1 t2 t3 t4) [] s = s := fun s => rfl
  rw [hnil]
  have ne21 : ("North Garage".data : List Char) ≠ "South Garage".data := by decide
  have ne31 : ("West Garage".data : List Char) ≠ "South Garage".data := by decide
  have ne32 : ("West Garage".data : List Char) ≠ "North Garage".data := by decide
  have ne41 : ("South Campus Garage".data : List Char) ≠ "South Garage".data := by
    decide
  have ne42 : ("South Campus Garage".data : List Char) ≠ "North Garage".data := by
    decide
  have ne43 : ("South Campus Garage".data : List Char) ≠ "West Garage".data := by
    decide
  have s1 : setStatus [] "South Garage".data (tokVal t1) =
      [("South Garage".data, tokVal t1)] := by
    rw [setStatus_append [] _ _ (by simp), List.nil_append]
  rw [s1]
  have s2 : setStatus [("South Garage".data, tokVal t1)]
      "North Garage".data (tokVal t2) =
      [("South Garage".data, tokVal t1), ("North Garage".data, tokVal t2)] := by
    rw [setStatus_append _ _ _ (by simp [ne21])]
    rfl
  rw [s2]
  have s3 : setStatus
      [("South Garage".data, tokVal t1), ("North Garage".data, tokVal t2)]
      "West Garage".data (tokVal t3) =
      [("South Garage".data, tokVal t1), ("North Garage".data, tokVal t2),
       ("West Garage".data, tokVal t3)] := by
    rw [setStatus_append _ _ _ (by simp [ne31, ne32])]
    rfl
  rw [s3]
  have s4 : setStatus
      [("South Garage".data, tokVal t1), ("North Garage".data, tokVal t2),
       ("West Garage".data, tokVal t3)]
      "South Campus Garage".data (tokVal t4) =
      [("South Garage".data, tokVal t1), ("North Garage".data, tokVal t2),
       ("West Garage".data, tokVal t3),
       ("South Campus Garage".data, tokVal t4)] := by
    rw [setStatus_append _ _ _ (by simp [ne41, ne42, ne43])]
    rfl
  rw [s4]

/-- Witness for C1: the text `South Garage 42% North Garage Full West Garage
9% South Campus Garage 130%` yields exactly the four expected entries. -/
theorem C1_extracts_all_witness :
    parseStatuses (mkText (GarageToken.pct ['4', '2']) GarageToken.full
      (GarageToken.pct ['9']) (GarageToken.pct ['1', '3', '0'])) =
      [("South Garage".data, 42), ("North Garage".data, 100),
       ("West Garage".data, 9), ("South Campus Garage".data, 130)] := by
  rw [C1_extracts_all (GarageToken.pct ['4', '2']) GarageToken.full
    (GarageToken.pct ['9']) (GarageToken.pct ['1', '3', '0'])
    ⟨by decide, by decide⟩ trivial ⟨by decide, by decide⟩ ⟨by decide, by decide⟩]
  decide
